import Mathlib

/-!
# hide_file_in_mp4.js: a shallow embedding

The script copies an MP4 container, inserts a `free` box right after `ftyp`,
and walks the rest of the container with a streaming state machine that shifts
the chunk offsets of every `stco`/`co64` table.

Conventions of the embedding.

* A byte is a natural number (a real byte is below 256); every byte the
  program itself produces is reduced modulo 256.
* JavaScript numbers that hold integers are modelled as `Int`; the values the
  program compares stay far below 2^53 on real files.  Where the script mixes
  `number` and `bigint` the value carries its kind (`JSInt`).
* A thrown exception stops the run: the state records it in `error` and is
  never stepped again.  `out` is the sequence of bytes handed to
  `outputStream.write` so far.
* The atom stack `atoms` is kept with its top (the last array element) at the
  head of the list.
-/

namespace HideFileInMp4

abbrev Byte := Nat

/-- Exceptions and fatal exits the script can end with. -/
inductive JSError where
  | typeError
  | rangeError
  | tooBig
  | invalidMp4
  | shortRead
  deriving DecidableEq, Repr

/-- An integer held either as a JavaScript `number` or as a `bigint`. -/
inductive JSInt where
  | num (v : Int)
  | big (v : Int)
  deriving DecidableEq, Repr

/-- The conversion `BigInt(x)` (the identity on a bigint). -/
def JSInt.toInt : JSInt → Int
  | .num v => v
  | .big v => v

/-! ## Byte-level helpers of Node's `Buffer` -/

/-- Big-endian value of a byte sequence. -/
def beNat (bs : List Byte) : Nat :=
  bs.foldl (fun acc b => acc * 256 + b) 0

/-- The four bytes `writeUInt32BE` stores for a value in range. -/
def u32be (v : Nat) : List Byte :=
  [v / 16777216 % 256, v / 65536 % 256, v / 256 % 256, v % 256]

/-- The eight bytes `writeBigUInt64BE` stores for a value in range. -/
def u64be (v : Nat) : List Byte :=
  [v / 72057594037927936 % 256, v / 281474976710656 % 256, v / 1099511627776 % 256,
   v / 4294967296 % 256, v / 16777216 % 256, v / 65536 % 256, v / 256 % 256, v % 256]

/-- Node's `adjustOffset`: a negative index counts from the end, and the
result is clamped to `0 .. length`. -/
def adjustOffset (offset : Int) (length : Nat) : Nat :=
  if offset < 0 then (offset + length).toNat else min offset.toNat length

/-- The method `buf.subarray(start, end)`. -/
def subarray (buf : List Byte) (start stop : Int) : List Byte :=
  let b := adjustOffset start buf.length
  let e := adjustOffset stop buf.length
  (buf.drop b).take (e - b)

/-- The method `buf.subarray(start)`. -/
def subarrayFrom (buf : List Byte) (start : Int) : List Byte :=
  buf.drop (adjustOffset start buf.length)

/-- The method `buf.readUInt32BE(off)`, for `off + 4 ≤ buf.length`. -/
def readUInt32BE (buf : List Byte) (off : Nat) : Nat :=
  beNat ((buf.drop off).take 4)

/-- The method `buf.readBigUInt64BE(off)`, for `off + 8 ≤ buf.length`. -/
def readBigUInt64BE (buf : List Byte) (off : Nat) : Nat :=
  beNat ((buf.drop off).take 8)

/-- Overwrite the front of `buf` with `bytes` (a write at offset 0, cut at the
end of the buffer as `buf.write(string)` does). -/
def writeFront (buf : List Byte) (bytes : List Byte) : List Byte :=
  bytes.take buf.length ++ buf.drop bytes.length

/-- The tag "stco". -/
def stcoTag : List Byte := [115, 116, 99, 111]

/-- The tag "co64". -/
def co64Tag : List Byte := [99, 111, 54, 52]

/-- The tag "ftyp". -/
def ftypTag : List Byte := [102, 116, 121, 112]

/-- The tag "free". -/
def freeTag : List Byte := [102, 114, 101, 101]

/-- The function `isValidAtomType`: every byte is a space, a digit or a letter. -/
def isValidAtomType (buffer : List Byte) : Bool :=
  buffer.all (fun b =>
    !(b != 32 && !(decide (48 ≤ b) && decide (b ≤ 57)) &&
      !(decide (65 ≤ b) && decide (b ≤ 90)) && !(decide (97 ≤ b) && decide (b ≤ 122))))

/-! ## The atom stack -/

/-- One open atom: `{ size, type, readSize, position }`. -/
structure Atom where
  size : JSInt
  type : List Byte
  readSize : Int
  position : Int
  deriving DecidableEq, Repr

/-- The `while` loop of `popAtom` after the first `atoms.pop()`: `carry` is the
size of the atom just removed, added to the `readSize` of the new top. -/
def popLoop (carry : Int) : List Atom → List Atom
  | [] => []
  | b :: rest =>
    if b.readSize + carry = b.size.toInt then popLoop b.size.toInt rest
    else { b with readSize := b.readSize + carry } :: rest

/-- The closure `popAtom`: `none` when the stack is empty (the script then
throws a TypeError), else the atom that was on top and the stack left. -/
def popAtom : List Atom → Option (Atom × List Atom)
  | [] => none
  | a :: rest => some ({ a with readSize := a.size.toInt }, popLoop a.size.toInt rest)

/-! ## The streaming state -/

/-- The values the variable `status` takes; the last two are assigned by the
`EXTENDED_HEADER` case and are no key of `statusEnum`. -/
inductive Status where
  | HEADER
  | EXTENDED_HEADER
  | ADDITION
  | ENTRY_COUNT
  | UINT32_CHUNK_OFFSET
  | UINT64_CHUNK_OFFSET
  | ADDITION_STCO
  | ADDITION_CO64
  deriving DecidableEq, Repr

/-- The lookup `statusEnum[status]`; `none` is JavaScript's `undefined`. -/
def statusEnum : Status → Option Nat
  | .HEADER => some 8
  | .EXTENDED_HEADER => some 8
  | .ADDITION => some 4
  | .ENTRY_COUNT => some 4
  | .UINT32_CHUNK_OFFSET => some 4
  | .UINT64_CHUNK_OFFSET => some 8
  | .ADDITION_STCO => none
  | .ADDITION_CO64 => none

/-- The variable `writeChunkOffsetType`. -/
inductive ChunkOffsetType where
  | stco
  | co64
  deriving DecidableEq, Repr

/-- The `PartialBuffer` fields together with the local variables of the
streamed pass (step 7.5 of `hideFileInVideo`). -/
structure State where
  buffer : List Byte
  offset : Int
  owedLength : Int
  out : List Byte
  processedBytes : Int
  atoms : List Atom
  positionsOfIncrements : List (Int × Int)
  remainingChunkOffsets : Int
  status : Status
  writeChunkOffsetType : ChunkOffsetType
  totalSize : Int
  error : Option JSError
  deriving DecidableEq, Repr

/-- The method `PartialBuffer.flush(length, writeFlushed)`. -/
def flush (length : Int) (writeFlushed : Bool) (s : State) : State :=
  let len : Int := s.buffer.length
  let actualLength : Int := if length > len then len else length
  let owed : Int := if length > len then length - len else 0
  { s with
    owedLength := owed
    out := if writeFlushed then s.out ++ subarray s.buffer 0 actualLength else s.out
    buffer := subarrayFrom s.buffer actualLength
    offset := s.offset + actualLength
    processedBytes := if writeFlushed then s.processedBytes + actualLength else s.processedBytes }

/-- The method `PartialBuffer.push(newBuf)`. -/
def push (newBuf : List Byte) (s : State) : State :=
  let s1 := { s with buffer := s.buffer ++ newBuf }
  if s1.owedLength > 0 then flush s1.owedLength true s1 else s1

/-- The lookup `positionsOfIncrements.get(position)` with `undefined` read as 0. -/
def ledgerGet (m : List (Int × Int)) (position : Int) : Int :=
  match m with
  | [] => 0
  | (p, v) :: rest => if p = position then v else ledgerGet rest position

/-- The update `positionsOfIncrements.set(position, old + increment)`; a new
key goes to the end, as in a JavaScript `Map`. -/
def ledgerAdd (m : List (Int × Int)) (position increment : Int) : List (Int × Int) :=
  match m with
  | [] => [(position, 0 + increment)]
  | (p, v) :: rest =>
    if p = position then (p, v + increment) :: rest
    else (p, v) :: ledgerAdd rest position increment

/-- The loop "Edit previous sizes" over `atoms[0 .. length - 2]`, given those
atoms from the bottom of the stack upwards. -/
def editPreviousSizes (m : List (Int × Int)) (increment : Int) : List Atom → List (Int × Int)
  | [] => m
  | a :: rest => editPreviousSizes (ledgerAdd m a.position increment) increment rest

/-! ## One iteration of the `switch` -/

/-- Mark the state as stopped by a thrown exception. -/
def raise (e : JSError) (s : State) : State :=
  { s with error := some e }

/-- The statement `popAtom(); status = "HEADER";` that ends a table. -/
def finishTable (s : State) : State :=
  match popAtom s.atoms with
  | none => raise .typeError s
  | some (_, rest) => { s with atoms := rest, status := .HEADER }

/-- The statements `remainingChunkOffsets--; if (remainingChunkOffsets === 0) ...`. -/
def countDown (s : State) : State :=
  let s1 := { s with remainingChunkOffsets := s.remainingChunkOffsets - 1 }
  if s1.remainingChunkOffsets = 0 then finishTable s1 else s1

/-- The case `"HEADER"`. -/
def stepHeader (s : State) : State :=
  let atomType := subarray s.buffer 4 8
  if isValidAtomType atomType then
    let size : Int := readUInt32BE s.buffer 0
    let atom : Atom :=
      { size := .num size, type := atomType, readSize := 8, position := s.processedBytes }
    if size = 1 then
      flush 8 true { s with atoms := atom :: s.atoms, status := .EXTENDED_HEADER }
    else
      let atoms := if size = 8 then s.atoms else atom :: s.atoms
      if atomType = stcoTag then
        if s.totalSize ≥ 4294967296 then
          let prefixLength : Int := 8 + 4 + 4
          let increment := size - prefixLength
          let newSize := (size - prefixLength) * 2 + prefixLength
          let s1 := { s with
            atoms := atoms
            status := .ADDITION
            writeChunkOffsetType := .co64
            totalSize := s.totalSize + increment }
          if newSize < 0 ∨ newSize ≥ 4294967296 then raise .rangeError s1
          else
            let s2 := { s1 with
              buffer := writeFront s1.buffer (u32be newSize.toNat)
              positionsOfIncrements :=
                editPreviousSizes s1.positionsOfIncrements increment atoms.tail.reverse }
            let s3 := flush 4 true s2
            flush 4 true { s3 with buffer := writeFront s3.buffer co64Tag }
        else
          flush 8 true { s with atoms := atoms, status := .ADDITION }
      else if atomType = co64Tag then
        flush 8 true { s with atoms := atoms, status := .ADDITION }
      else
        flush 8 true { s with atoms := atoms }
  else
    match popAtom s.atoms with
    | none => raise .typeError s
    | some (lastAtom, rest) =>
      match lastAtom.size with
      | .big _ => raise .typeError { s with atoms := rest }
      | .num v => flush (v - (if v ≥ 4294967296 then 16 else 8)) true { s with atoms := rest }

/-- The case `"EXTENDED_HEADER"`: the 64-bit size is read at buffer offset 8,
which needs 16 buffered bytes (a RangeError otherwise). -/
def stepExtendedHeader (s : State) : State :=
  match s.atoms with
  | [] => raise .typeError s
  | a :: rest =>
    if s.buffer.length < 16 then raise .rangeError s
    else
      let a1 : Atom := { a with size := .big (readBigUInt64BE s.buffer 8), readSize := 16 }
      let s1 := flush 8 true { s with atoms := a1 :: rest }
      { s1 with status :=
          if a1.type = stcoTag then .ADDITION_STCO
          else if a1.type = co64Tag then .ADDITION_CO64
          else .HEADER }

/-- The case `"ADDITION"`. -/
def stepAddition (s : State) : State :=
  { flush 4 true s with status := .ENTRY_COUNT }

/-- The case `"ENTRY_COUNT"`. -/
def stepEntryCount (s : State) : State :=
  let s1 := flush 4 true { s with remainingChunkOffsets := readUInt32BE s.buffer 0 }
  if s1.remainingChunkOffsets > 0 then
    match s1.atoms with
    | [] => raise .typeError s1
    | a :: _ =>
      { s1 with status :=
          if a.type = stcoTag then .UINT32_CHUNK_OFFSET else .UINT64_CHUNK_OFFSET }
  else finishTable s1

/-- The case `"UINT32_CHUNK_OFFSET"`.  In `stco` mode the sum `offset +
freeHeaderSize` mixes a number with a bigint when the free header is the
extended one; in `co64` mode `writeBigUInt64BE` is handed a plain number when
the free header is the standard one, and a value in range then throws a
TypeError. -/
def stepUint32 (freeHeaderSize : JSInt) (s : State) : State :=
  let offset : Int := readUInt32BE s.buffer 0
  match s.writeChunkOffsetType with
  | .stco =>
    match freeHeaderSize with
    | .big _ => raise .typeError s
    | .num f =>
      if offset + f < 0 ∨ offset + f ≥ 4294967296 then raise .rangeError s
      else countDown (flush 4 true { s with buffer := writeFront s.buffer (u32be (offset + f).toNat) })
  | .co64 =>
    let s1 := flush 4 false s
    let v := offset + freeHeaderSize.toInt
    if v < 0 ∨ v ≥ 18446744073709551616 then raise .rangeError s1
    else
      match freeHeaderSize with
      | .num _ => raise .typeError s1
      | .big _ =>
        countDown { s1 with out := s1.out ++ u64be v.toNat, processedBytes := s1.processedBytes + 8 }

/-- The case `"UINT64_CHUNK_OFFSET"`. -/
def stepUint64 (freeHeaderSize : JSInt) (s : State) : State :=
  let offset : Int := readBigUInt64BE s.buffer 0
  let v := offset + freeHeaderSize.toInt
  if v < 0 ∨ v ≥ 18446744073709551616 then raise .rangeError s
  else countDown (flush 8 true { s with buffer := writeFront s.buffer (u64be v.toNat) })

/-- The body of the `while` loop: dispatch on `status`. -/
def step (freeHeaderSize : JSInt) (s : State) : State :=
  match s.status with
  | .HEADER => stepHeader s
  | .EXTENDED_HEADER => stepExtendedHeader s
  | .ADDITION => stepAddition s
  | .ENTRY_COUNT => stepEntryCount s
  | .UINT32_CHUNK_OFFSET => stepUint32 freeHeaderSize s
  | .UINT64_CHUNK_OFFSET => stepUint64 freeHeaderSize s
  | .ADDITION_STCO => s
  | .ADDITION_CO64 => s

/-- The loop condition `buffer.length >= statusEnum[status]` (false against
`undefined`), for a run no exception has stopped. -/
def canStep (s : State) : Bool :=
  s.error.isNone &&
    match statusEnum s.status with
    | none => false
    | some k => decide (k ≤ s.buffer.length)

/-- The `while` loop with an explicit iteration bound. -/
def drainFuel (freeHeaderSize : JSInt) : Nat → State → State
  | 0, s => s
  | n + 1, s => if canStep s then drainFuel freeHeaderSize n (step freeHeaderSize s) else s

/-- The `while` loop: every iteration shortens the buffer or the stack, so
`buffer.length + atoms.length` iterations are enough (`drain_canStep`). -/
def drain (freeHeaderSize : JSInt) (s : State) : State :=
  drainFuel freeHeaderSize (s.buffer.length + s.atoms.length) s

/-- One round of `for await (const chunk of restVideoStream)`. -/
def feedChunk (freeHeaderSize : JSInt) (s : State) (chunk : List Byte) : State :=
  if s.error.isSome then s else drain freeHeaderSize (push chunk s)

/-- The whole `for await` loop over the chunks of the rest of the video. -/
def feed (freeHeaderSize : JSInt) (s : State) (chunks : List (List Byte)) : State :=
  chunks.foldl (feedChunk freeHeaderSize) s

/-- The state in which step 7.5 starts. -/
def initState (totalSize processedBytes : Int) (out : List Byte) : State :=
  { buffer := []
    offset := 0
    owedLength := 0
    out := out
    processedBytes := processedBytes
    atoms := []
    positionsOfIncrements := []
    remainingChunkOffsets := 0
    status := .HEADER
    writeChunkOffsetType := .stco
    totalSize := totalSize
    error := none }

/-! ## The free atom header, the post-pass and the whole run -/

/-- Steps 5 and 6 of `hideFileInVideo`: the bytes of `freeHeader` and the
value of `freeHeaderSize`, from `freeContentSize`.  `writeUInt32BE` throws a
RangeError for a value of 2^32 or more. -/
def buildFreeHeader (freeContentSize : Nat) : Except JSError (List Byte × JSInt) :=
  if freeContentSize < 4294967296 then
    if 8 + freeContentSize ≥ 4294967296 then .error .rangeError
    else .ok (u32be (8 + freeContentSize) ++ freeTag, .num (8 + freeContentSize))
  else if freeContentSize ≥ 9007199254740991 then .error .tooBig
  else .ok (u32be 1 ++ freeTag ++ u64be (16 + freeContentSize), .big (16 + freeContentSize))

/-- Overwrite `bytes.length` bytes of `file` at position `p` (`fd.write`
inside the file). -/
def writeAt (file : List Byte) (p : Nat) (bytes : List Byte) : List Byte :=
  file.take p ++ bytes ++ file.drop (p + bytes.length)

/-- The body of the loop "Update parent atom/box size" for one entry of
`positionsOfIncrements`.  A read that is not wholly inside the file would
leave the temporary buffer uninitialised; the model stops there with
`shortRead`. -/
def patchEntry (file : List Byte) (position increment : Int) : Except JSError (List Byte) :=
  if position < 0 ∨ position + 4 > file.length then .error .shortRead
  else
    let p := position.toNat
    let oldSize : Int := readUInt32BE file p
    if oldSize = 1 then
      if position + 16 > file.length then .error .shortRead
      else
        let oldLargeSize : Int := readBigUInt64BE file (p + 8)
        let v := oldLargeSize + increment
        if v < 0 ∨ v ≥ 18446744073709551616 then .error .rangeError
        else .ok (writeAt file (p + 8) (u64be v.toNat))
    else
      let v := oldSize + increment
      if v < 0 ∨ v ≥ 4294967296 then .error .rangeError
      else .ok (writeAt file p (u32be v.toNat))

/-- What a run leaves behind: the exception that stopped it, if any, and the
bytes handed to the output file (after the post-pass, when it ran). -/
structure Outcome where
  error : Option JSError
  file : List Byte
  deriving DecidableEq, Repr

/-- The loop over `positionsOfIncrements.entries()`. -/
def patchAll (file : List Byte) : List (Int × Int) → Outcome
  | [] => { error := none, file := file }
  | (position, increment) :: rest =>
    match patchEntry file position increment with
    | .error e => { error := some e, file := file }
    | .ok file1 => patchAll file1 rest

/-- The chunks a read stream delivers for `data`: `cuts` gives the lengths of
the leading chunks, the last chunk takes what is left. -/
def splitChunks : List Nat → List Byte → List (List Byte)
  | [], data => [data]
  | n :: ns, data => data.take n :: splitChunks ns (data.drop n)

/-- The function `hideFileInVideo` on the bytes of the video, of the attached
file and of the random `confusionData`, with the chunking of the rest of the
video.  `createReadStream` rejects `end: -1`, so an `ftyp` size of 0 stops the
run with a RangeError. -/
def hideFileInVideo (video attach confusionData : List Byte) (cuts : List Nat) : Outcome :=
  let headerBuffer := video.take 8 ++ List.replicate (8 - video.length) 0
  if subarray headerBuffer 4 8 ≠ ftypTag then { error := some .invalidMp4, file := [] }
  else
    let ftypSize := readUInt32BE headerBuffer 0
    if ftypSize = 0 then { error := some .rangeError, file := [] }
    else
      let freeContentSize := attach.length + confusionData.length
      match buildFreeHeader freeContentSize with
      | .error e => { error := some e, file := [] }
      | .ok (freeHeader, freeHeaderSize) =>
        let totalSize : Int := video.length + freeContentSize + freeHeader.length
        let out0 := video.take ftypSize ++ freeHeader ++ attach ++ confusionData
        let s := feed freeHeaderSize (initState totalSize out0.length out0)
          (splitChunks cuts (video.drop ftypSize))
        match s.error with
        | some e => { error := some e, file := s.out }
        | none => patchAll s.out s.positionsOfIncrements

/-! ## Vocabulary of the proofs -/

/-- The termination measure of the `while` loop. -/
def measure (s : State) : Nat := s.buffer.length + s.atoms.length

/-- The rest of the run from a state inside the `while` loop: finish the loop,
then take the chunks still to come. -/
def run (f : JSInt) (s : State) (cs : List (List Byte)) : State :=
  feed f (drain f s) cs

/-- From `s`, once the bytes `pre` have arrived (however they are cut into
chunks), the run goes on as from `t` with the bytes after `pre`. -/
def Consumes (f : JSInt) (s : State) (pre : List Byte) (t : State) : Prop :=
  ∀ (b0 : List Byte) (cs : List (List Byte)) (rest : List Byte),
    b0 ++ cs.flatten = pre ++ rest →
    ∃ b cs', b ++ cs'.flatten = rest ∧
      run f { s with buffer := b0 } cs = run f { t with buffer := b } cs'

/-- The state after a standard table header (size and tag) has been copied:
the atom is pushed and the machine waits for the version/flags field. -/
def afterHeader (tag : List Byte) (size : Nat) (s : State) : State :=
  { s with
    owedLength := 0
    out := s.out ++ (u32be size ++ tag)
    offset := s.offset + 8
    processedBytes := s.processedBytes + 8
    atoms := { size := .num size, type := tag, readSize := 8, position := s.processedBytes } :: s.atoms
    status := .ADDITION }

/-- The state after `pre` has been copied through unchanged. -/
def copied (pre : List Byte) (s : State) : State :=
  { s with
    owedLength := 0
    out := s.out ++ pre
    offset := s.offset + pre.length
    processedBytes := s.processedBytes + pre.length }

/-- The bytes of an `stco` box with a standard header: size, tag,
version/flags, entry count, then one 32-bit offset per entry. -/
def stcoBox (vf : List Byte) (entries : List Nat) : List Byte :=
  u32be (16 + 4 * entries.length) ++ stcoTag ++ vf ++ u32be entries.length ++
    entries.flatMap u32be

/-- The bytes of a `co64` box with a standard header: size, tag,
version/flags, entry count, then one 64-bit offset per entry. -/
def co64Box (vf : List Byte) (entries : List Nat) : List Byte :=
  u32be (16 + 8 * entries.length) ++ co64Tag ++ vf ++ u32be entries.length ++
    entries.flatMap u64be

/-- A minimal `ftyp` box: size 8 and the tag. -/
def ftypBox : List Byte := [0, 0, 0, 8, 102, 116, 121, 112]

/-- The open atoms lie at output positions from `P0` on, each at least 8
bytes before the next and before the output cursor `pb`, with sizes that are
not negative. -/
def StackOk (P0 pb : Int) (atoms : List Atom) : Prop :=
  P0 ≤ pb ∧
    (∀ a ∈ atoms, P0 ≤ a.position ∧ a.position + 8 ≤ pb ∧ 0 ≤ a.size.toInt) ∧
    atoms.Pairwise (fun a b => b.position + 8 ≤ a.position)

/-- Every position recorded in the ledger is at least `P0`. -/
def LedgerOk (P0 : Int) (m : List (Int × Int)) : Prop :=
  ∀ e ∈ m, P0 ≤ e.1

/-- The invariant of the streamed pass, for a run that started with the
output cursor at `P0`; a state stopped by an exception is exempt. -/
def Sound (P0 : Int) (s : State) : Prop :=
  s.error = none → StackOk P0 s.processedBytes s.atoms ∧ LedgerOk P0 s.positionsOfIncrements

/-- A state for the examples: two boxes are open, `moov` at output position
100 and `trak` at 108, the total size is 2^32, and the buffer holds the header
of an `stco` table with two entries. -/
def upgradeExample : State :=
  { initState 4294967296 116 [] with
    buffer := [0, 0, 0, 24, 115, 116, 99, 111]
    atoms := [{ size := .num 500, type := [116, 114, 97, 107], readSize := 8, position := 108 },
              { size := .num 600, type := [109, 111, 111, 118], readSize := 8, position := 100 }] }

/-- The run never upgrades a table: the total size is below 2^32 and offsets
are written as 32-bit values. -/
def PlainMode (s : State) : Prop :=
  s.totalSize < 4294967296 ∧ s.writeChunkOffsetType = .stco

/-- The state after the header of an `stco` table with `N` entries has been
rewritten to a `co64` header. -/
def afterUpgrade (N : Nat) (s : State) : State :=
  { s with
    owedLength := 0
    out := s.out ++ (u32be (16 + 8 * N) ++ co64Tag)
    offset := s.offset + 8
    processedBytes := s.processedBytes + 8
    atoms := { size := .num ((16 + 4 * N : Nat) : Int), type := stcoTag, readSize := 8,
               position := s.processedBytes } :: s.atoms
    status := .ADDITION
    writeChunkOffsetType := .co64
    totalSize := s.totalSize + 4 * N
    positionsOfIncrements := editPreviousSizes s.positionsOfIncrements (4 * N) s.atoms.reverse }

/-- The state after a 32-bit entry has been replaced by the 64-bit value `v`. -/
def widened (v : Nat) (s : State) : State :=
  { s with
    owedLength := 0
    offset := s.offset + 4
    out := s.out ++ u64be v
    processedBytes := s.processedBytes + 8 }

/-- The successive calls `buffer.push(c1)`, ..., `buffer.push(cn)`. -/
def pushAll (cs : List (List Byte)) (s : State) : State :=
  cs.foldl (fun t c => push c t) s

/-- The state after the standard header of a box that is no offset table has
been copied: the atom is pushed and the machine stays in `HEADER`. -/
def afterPlainHeader (tag : List Byte) (size : Nat) (s : State) : State :=
  { afterHeader tag size s with status := s.status }

/-- A state for the examples: the streamed pass has just started after 19
bytes of output (`ftyp`, free header, payload, filler) and the buffer holds a
box whose 32-bit size is 1, of type `mdat`, with the 64-bit size 24 and 8
content bytes. -/
def extendedExample : State :=
  { initState 1000 19 [] with
    buffer := [0, 0, 0, 1, 109, 100, 97, 116, 0, 0, 0, 0, 0, 0, 0, 24, 1, 2, 3, 4, 5, 6, 7, 8] }

/-- A state for the examples: the box `moov` of size 16 is open with 8 bytes
consumed, and the buffer holds a header-only box `free` of size 8. -/
def emptyChildExample : State :=
  { initState 1000 27 [] with
    buffer := [0, 0, 0, 8, 102, 114, 101, 101]
    atoms := [{ size := .num 16, type := [109, 111, 111, 118], readSize := 8, position := 19 }] }

/-- A state the `while` loop passes through: the chunks `pre` have been
processed, the chunk `c` has been pushed, and `n` iterations have run since. -/
def visited (f : JSInt) (s0 : State) (pre : List (List Byte)) (c : List Byte) (n : Nat) : State :=
  drainFuel f n (push c (feed f s0 pre))

/-- While the machine reads the entries of a table, the box of the table is
on the stack. -/
def TableOpen (s : State) : Prop :=
  (s.status = .UINT32_CHUNK_OFFSET ∨ s.status = .UINT64_CHUNK_OFFSET) → s.atoms ≠ []

/-- A state for the examples: the video is `ftyp` followed by an `stco` table
with the one entry 10 (28 bytes), the `free` box holds 3 bytes of content
(`freeHeaderSize` is 11, the total size 39); the table has arrived in one
chunk and three iterations (`HEADER`, `ADDITION`, `ENTRY_COUNT`) have run. -/
def entryExample : State :=
  visited (.num 11) (initState 39 19 (ftypBox ++ (u32be 11 ++ freeTag) ++ [9, 9] ++ [7])) []
    (stcoBox [0, 0, 0, 0] [10]) 3

/-! ## Proofs: the loop terminates within its bound -/

theorem adjustOffset_natCast (k n : Nat) : adjustOffset (k : Int) n = min k n := by
  unfold adjustOffset
  have : ¬ ((k : Int) < 0) := by omega
  simp [this]

theorem subarrayFrom_length_le (buf : List Byte) (k : Int) :
    (subarrayFrom buf k).length ≤ buf.length := by
  simp [subarrayFrom]

theorem subarrayFrom_length_nonneg (buf : List Byte) (k : Int) (hk : 0 ≤ k) :
    (subarrayFrom buf k).length = buf.length - k.toNat := by
  obtain ⟨n, rfl⟩ := Int.eq_ofNat_of_zero_le hk
  simp [subarrayFrom, adjustOffset_natCast]
  omega

@[simp] theorem flush_atoms (k : Int) (w : Bool) (s : State) : (flush k w s).atoms = s.atoms := rfl
@[simp] theorem flush_error (k : Int) (w : Bool) (s : State) : (flush k w s).error = s.error := rfl
@[simp] theorem flush_status (k : Int) (w : Bool) (s : State) : (flush k w s).status = s.status := rfl

theorem flush_buffer_length_le (k : Int) (w : Bool) (s : State) :
    (flush k w s).buffer.length ≤ s.buffer.length := by
  simp only [flush]
  exact subarrayFrom_length_le _ _

theorem flush_buffer_length (k : Int) (w : Bool) (s : State) (h : 0 ≤ k) :
    (flush k w s).buffer.length = s.buffer.length - k.toNat := by
  simp only [flush]
  split
  · rw [subarrayFrom_length_nonneg _ _ (by omega)]
    omega
  · rw [subarrayFrom_length_nonneg _ _ h]

theorem popLoop_length_le (carry : Int) (l : List Atom) : (popLoop carry l).length ≤ l.length := by
  induction l generalizing carry with
  | nil => simp [popLoop]
  | cons b rest ih =>
    simp only [popLoop]
    split
    · have := ih b.size.toInt
      simp; omega
    · simp

theorem popAtom_length_lt {l : List Atom} {a : Atom} {rest : List Atom}
    (h : popAtom l = some (a, rest)) : rest.length < l.length := by
  cases l with
  | nil => simp [popAtom] at h
  | cons x xs =>
    simp only [popAtom, Option.some.injEq, Prod.mk.injEq] at h
    obtain ⟨-, rfl⟩ := h
    have := popLoop_length_le x.size.toInt xs
    simp; omega


theorem finishTable_measure (s : State) :
    (finishTable s).buffer = s.buffer ∧ (finishTable s).atoms.length ≤ s.atoms.length := by
  unfold finishTable
  split
  · simp [raise]
  · rename_i a rest h
    have := popAtom_length_lt h
    simp; omega

theorem countDown_measure (s : State) :
    (countDown s).buffer = s.buffer ∧ (countDown s).atoms.length ≤ s.atoms.length := by
  unfold countDown
  simp only
  split
  · exact finishTable_measure _
  · simp

@[simp] theorem writeFront_length (buf bytes : List Byte) :
    (writeFront buf bytes).length = buf.length := by
  simp [writeFront, List.length_take]
  omega

theorem stepHeader_measure (s : State) (h : 8 ≤ s.buffer.length) :
    (stepHeader s).error.isSome ∨ measure (stepHeader s) < measure s := by
  unfold stepHeader
  simp only
  split
  · split
    · right
      simp [measure, flush_buffer_length]
      omega
    · split
      · split
        · split
          · left; simp [raise]
          · right
            simp [measure, flush_buffer_length]
            split <;> simp <;> omega
        · right
          simp [measure, flush_buffer_length]
          split <;> simp <;> omega
      · split
        · right
          simp [measure, flush_buffer_length]
          split <;> simp <;> omega
        · right
          simp [measure, flush_buffer_length]
          split <;> simp <;> omega
  · split
    · left; simp [raise]
    · rename_i lastAtom rest hpop
      have hlt := popAtom_length_lt hpop
      split
      · left; simp [raise]
      · right
        rename_i v _
        have := flush_buffer_length_le (v - if v ≥ 4294967296 then 16 else 8) true
          { s with atoms := rest }
        simp only [measure, flush_atoms]
        simp only [] at this
        omega

theorem stepExtendedHeader_measure (s : State) :
    (stepExtendedHeader s).error.isSome ∨ measure (stepExtendedHeader s) < measure s := by
  unfold stepExtendedHeader
  split
  · left; simp [raise]
  · rename_i a rest hat
    split
    · left; simp [raise]
    · right
      simp [measure, flush_buffer_length, hat]
      omega

theorem stepAddition_measure (s : State) (h : 4 ≤ s.buffer.length) :
    measure (stepAddition s) < measure s := by
  simp [stepAddition, measure, flush_buffer_length]
  omega

theorem finishTable_measure_le (t : State) : measure (finishTable t) ≤ measure t := by
  have := finishTable_measure t
  simp only [measure, this.1]
  omega

theorem countDown_measure_le (t : State) : measure (countDown t) ≤ measure t := by
  have := countDown_measure t
  simp only [measure, this.1]
  omega

theorem stepEntryCount_measure (s : State) (h : 4 ≤ s.buffer.length) :
    measure (stepEntryCount s) < measure s := by
  unfold stepEntryCount
  simp only
  split
  · split
    · simp [measure, raise, flush_buffer_length]
      omega
    · simp [measure, flush_buffer_length]
      omega
  · refine lt_of_le_of_lt (finishTable_measure_le _) ?_
    simp [measure, flush_buffer_length]
    omega

theorem stepUint32_measure (f : JSInt) (s : State) (h : 4 ≤ s.buffer.length) :
    (stepUint32 f s).error.isSome ∨ measure (stepUint32 f s) < measure s := by
  unfold stepUint32
  simp only
  split
  · split
    · left; simp [raise]
    · split
      · left; simp [raise]
      · right
        refine lt_of_le_of_lt (countDown_measure_le _) ?_
        simp [measure, flush_buffer_length]
        omega
  · split
    · left; simp [raise]
    · split
      · left; simp [raise]
      · right
        refine lt_of_le_of_lt (countDown_measure_le _) ?_
        simp [measure, flush_buffer_length]
        omega

theorem stepUint64_measure (f : JSInt) (s : State) (h : 8 ≤ s.buffer.length) :
    (stepUint64 f s).error.isSome ∨ measure (stepUint64 f s) < measure s := by
  unfold stepUint64
  simp only
  split
  · left; simp [raise]
  · right
    refine lt_of_le_of_lt (countDown_measure_le _) ?_
    simp [measure, flush_buffer_length]
    omega

theorem step_measure (f : JSInt) (s : State) (h : canStep s = true) :
    (step f s).error.isSome ∨ measure (step f s) < measure s := by
  unfold canStep at h
  simp only [Bool.and_eq_true] at h
  obtain ⟨-, h⟩ := h
  unfold step
  cases hst : s.status <;> simp [hst, statusEnum] at h ⊢
  · exact stepHeader_measure s h
  · exact stepExtendedHeader_measure s
  · exact Or.inr (stepAddition_measure s h)
  · exact Or.inr (stepEntryCount_measure s h)
  · exact stepUint32_measure f s h
  · exact stepUint64_measure f s h

theorem drainFuel_of_not_canStep (f : JSInt) (n : Nat) (s : State) (h : canStep s = false) :
    drainFuel f n s = s := by
  cases n <;> simp [drainFuel, h]

theorem canStep_measure_pos (s : State) (h : canStep s = true) : 0 < measure s := by
  unfold canStep at h
  simp only [Bool.and_eq_true] at h
  obtain ⟨-, h⟩ := h
  cases hst : s.status <;> simp [hst, statusEnum] at h <;> simp [measure] <;> omega

theorem drainFuel_stable (f : JSInt) (n m : Nat) (s : State)
    (hn : measure s ≤ n) (hm : measure s ≤ m) : drainFuel f n s = drainFuel f m s := by
  induction n generalizing m s with
  | zero =>
    have hc : canStep s = false := by
      by_contra hc
      have := canStep_measure_pos s (by simpa using hc)
      omega
    rw [drainFuel_of_not_canStep f _ s hc, drainFuel_of_not_canStep f _ s hc]
  | succ n ih =>
    by_cases hc : canStep s = true
    · have hpos := canStep_measure_pos s hc
      obtain ⟨m, rfl⟩ : ∃ k, m = k + 1 := ⟨m - 1, by omega⟩
      simp only [drainFuel, hc, if_true]
      rcases step_measure f s hc with he | hlt
      · have hc2 : canStep (step f s) = false := by
          unfold canStep
          cases hh : (step f s).error <;> simp_all
        rw [drainFuel_of_not_canStep f _ _ hc2, drainFuel_of_not_canStep f _ _ hc2]
      · exact ih m _ (by omega) (by omega)
    · have hc : canStep s = false := by simpa using hc
      rw [drainFuel_of_not_canStep f _ s hc, drainFuel_of_not_canStep f _ s hc]

/-- The loop equation of `drain`. -/
theorem drain_eq (f : JSInt) (s : State) :
    drain f s = if canStep s then drain f (step f s) else s := by
  by_cases hc : canStep s = true
  · simp only [hc, if_true]
    have hpos := canStep_measure_pos s hc
    unfold drain
    have : s.buffer.length + s.atoms.length = (measure s - 1) + 1 := by
      simp only [measure] at hpos ⊢; omega
    rw [this]
    simp only [drainFuel, hc, if_true]
    rcases step_measure f s hc with he | hlt
    · have hc2 : canStep (step f s) = false := by
        unfold canStep
        cases hh : (step f s).error <;> simp_all
      rw [drainFuel_of_not_canStep f _ _ hc2, drainFuel_of_not_canStep f _ _ hc2]
    · exact drainFuel_stable f _ _ _ (by omega) (by simp [measure])
  · have hc : canStep s = false := by simpa using hc
    simp only [hc]
    exact drainFuel_of_not_canStep f _ s hc

/-- The loop has really ended when `drain` returns: no iteration is left. -/
theorem drain_canStep (f : JSInt) (s : State) : canStep (drain f s) = false := by
  have key : ∀ n (s : State), measure s ≤ n → canStep (drainFuel f n s) = false := by
    intro n
    induction n with
    | zero =>
      intro s hs
      by_contra hc
      have := canStep_measure_pos s (by simpa [drainFuel] using hc)
      omega
    | succ n ih =>
      intro s hs
      by_cases hc : canStep s = true
      · simp only [drainFuel, hc, if_true]
        rcases step_measure f s hc with he | hlt
        · have hc2 : canStep (step f s) = false := by
            unfold canStep
            cases hh : (step f s).error <;> simp_all
          rw [drainFuel_of_not_canStep f _ _ hc2]; exact hc2
        · exact ih _ (by omega)
      · have hc : canStep s = false := by simpa using hc
        rw [drainFuel_of_not_canStep f _ s hc]; exact hc
  exact key _ s (by simp [measure])

/-! ## Proofs: runs over chunked input -/

theorem run_step (f : JSInt) (s : State) (cs : List (List Byte)) (h : canStep s = true) :
    run f s cs = run f (step f s) cs := by
  unfold run
  rw [drain_eq f s]
  simp [h]

theorem drain_of_not_canStep (f : JSInt) (s : State) (h : canStep s = false) :
    drain f s = s := by
  rw [drain_eq]; simp [h]

theorem run_cons (f : JSInt) (s : State) (c : List Byte) (cs : List (List Byte))
    (h : canStep s = false) (he : s.error = none) (ho : s.owedLength = 0) :
    run f s (c :: cs) = run f { s with buffer := s.buffer ++ c } cs := by
  unfold run
  rw [drain_of_not_canStep f s h]
  simp [feed, feedChunk, he, push, ho]

theorem consumes_refl (f : JSInt) (s : State) : Consumes f s [] s := by
  intro b0 cs rest h
  exact ⟨b0, cs, by simpa using h, rfl⟩

theorem consumes_trans {f : JSInt} {s t u : State} {p q : List Byte}
    (h1 : Consumes f s p t) (h2 : Consumes f t q u) : Consumes f s (p ++ q) u := by
  intro b0 cs rest h
  obtain ⟨b, cs', hb, hr⟩ := h1 b0 cs (q ++ rest) (by simpa using h)
  obtain ⟨b', cs'', hb', hr'⟩ := h2 b cs' rest hb
  exact ⟨b', cs'', hb', hr.trans hr'⟩

theorem consumes_step (f : JSInt) (s t : State) (pre : List Byte)
    (he : s.error = none) (ho : s.owedLength = 0)
    (hst : statusEnum s.status = some pre.length)
    (hstep : ∀ b, step f { s with buffer := pre ++ b } = { t with buffer := b }) :
    Consumes f s pre t := by
  intro b0 cs rest h
  induction cs generalizing b0 with
  | nil =>
    simp only [List.flatten_nil, List.append_nil] at h
    subst h
    refine ⟨rest, [], by simp, ?_⟩
    rw [run_step, hstep]
    simp [canStep, he, hst]
  | cons c cs ih =>
    by_cases hlen : pre.length ≤ b0.length
    · obtain ⟨b, rfl⟩ : ∃ b, b0 = pre ++ b := by
        rcases List.append_eq_append_iff.1 h with ⟨a, ha, -⟩ | ⟨a, ha, -⟩
        · have : a = [] := by
            apply List.eq_nil_of_length_eq_zero
            rw [ha, List.length_append] at hlen
            omega
          subst this
          exact ⟨[], by simp [ha]⟩
        · exact ⟨a, ha⟩
      refine ⟨b, c :: cs, ?_, ?_⟩
      · simpa using h
      · rw [run_step, hstep]
        simp [canStep, he, hst]
    · have hc : canStep { s with buffer := b0 } = false := by
        simp [canStep, he, hst]; omega
      rw [run_cons f _ c cs hc he ho]
      exact ih (b0 ++ c) (by simpa using h)

/-! ## Proofs: byte-level lemmas -/

theorem beNat_u32be (v : Nat) (h : v < 4294967296) : beNat (u32be v) = v := by
  simp only [beNat, u32be, List.foldl]
  omega

theorem beNat_u64be (v : Nat) (h : v < 18446744073709551616) : beNat (u64be v) = v := by
  simp only [beNat, u64be, List.foldl]
  omega

@[simp] theorem u32be_length (v : Nat) : (u32be v).length = 4 := rfl

@[simp] theorem u64be_length (v : Nat) : (u64be v).length = 8 := rfl

theorem readUInt32BE_append (p b : List Byte) (hp : p.length = 4) :
    readUInt32BE (p ++ b) 0 = beNat p := by
  simp [readUInt32BE, List.take_append_eq_append_take, hp]

theorem readBigUInt64BE_append (p b : List Byte) (hp : p.length = 8) :
    readBigUInt64BE (p ++ b) 0 = beNat p := by
  simp [readBigUInt64BE, List.take_append_eq_append_take, hp]

theorem subarray_zero (buf : List Byte) (k : Nat) : subarray buf 0 (k : Int) = buf.take k := by
  simp only [subarray, adjustOffset_natCast]
  have : adjustOffset 0 buf.length = 0 := by simp [adjustOffset]
  simp [this, List.take_take]

theorem subarrayFrom_natCast (buf : List Byte) (k : Nat) :
    subarrayFrom buf (k : Int) = buf.drop k := by
  simp only [subarrayFrom, adjustOffset_natCast]
  by_cases h : k ≤ buf.length
  · simp [h]
  · have : buf.length ≤ k := by omega
    simp [this, List.drop_eq_nil_of_le]

theorem subarray_type (p t b : List Byte) (hp : p.length = 4) (ht : t.length = 4) :
    subarray (p ++ t ++ b) 4 8 = t := by
  have h4 : adjustOffset 4 (p ++ t ++ b).length = 4 := by
    have := adjustOffset_natCast 4 (p ++ t ++ b).length
    simp only [Nat.cast_ofNat] at this
    rw [this]; simp [hp, ht]
  have h8 : adjustOffset 8 (p ++ t ++ b).length = 8 := by
    have := adjustOffset_natCast 8 (p ++ t ++ b).length
    simp only [Nat.cast_ofNat] at this
    rw [this]; simp [hp, ht]; omega
  simp only [subarray, h4, h8]
  rw [List.append_assoc, List.drop_append_eq_append_drop]
  simp [hp, List.take_append_eq_append_take, ht]

theorem flush_front (pre b : List Byte) (s : State) (k : Int) (hk : k = pre.length)
    (hb : s.buffer = pre ++ b) :
    flush k true s = { s with
      owedLength := 0
      out := s.out ++ pre
      buffer := b
      offset := s.offset + k
      processedBytes := s.processedBytes + k } := by
  subst hk
  have hle : ¬ ((pre.length : Int) > (s.buffer.length : Int)) := by
    rw [hb]; simp
  unfold flush
  simp only [hle, if_false, if_true]
  rw [subarray_zero, subarrayFrom_natCast, hb]
  simp

theorem flush_front_silent (pre b : List Byte) (s : State) (k : Int) (hk : k = pre.length)
    (hb : s.buffer = pre ++ b) :
    flush k false s = { s with
      owedLength := 0
      buffer := b
      offset := s.offset + k } := by
  subst hk
  have hle : ¬ ((pre.length : Int) > (s.buffer.length : Int)) := by
    rw [hb]; simp
  unfold flush
  simp only [hle, if_false]
  rw [subarrayFrom_natCast, hb]
  simp

theorem writeFront_append (pre b w : List Byte) (h : w.length = pre.length) :
    writeFront (pre ++ b) w = w ++ b := by
  simp [writeFront, h, List.take_of_length_le]

/-! ## Proofs: the phases of a table -/

theorem header_stco_plain (f : JSInt) (s : State) (size : Nat)
    (he : s.error = none) (ho : s.owedLength = 0) (hs : s.status = .HEADER)
    (htot : s.totalSize < 4294967296)
    (hsz : size < 4294967296) (h1 : size ≠ 1) (h8 : size ≠ 8) :
    Consumes f s (u32be size ++ stcoTag) (afterHeader stcoTag size s) := by
  apply consumes_step f s _ _ he ho
  · simp [hs, statusEnum, stcoTag]
  · intro b
    have hty : subarray (u32be size ++ stcoTag ++ b) 4 8 = stcoTag :=
      subarray_type _ _ _ rfl rfl
    have hrd : readUInt32BE (u32be size ++ stcoTag ++ b) 0 = size := by
      rw [List.append_assoc, readUInt32BE_append (u32be size) _ rfl, beNat_u32be _ hsz]
    have hv : isValidAtomType stcoTag = true := by decide
    have hnot : ¬ (s.totalSize ≥ 4294967296) := by omega
    simp only [step, hs, stepHeader, hty, hrd, hv, if_true, hnot, if_false]
    have h1' : ¬ ((size : Int) = 1) := by omega
    have h8' : ¬ ((size : Int) = 8) := by omega
    simp only [h1', h8', if_false]
    rw [flush_front (u32be size ++ stcoTag) b _ 8 (by simp [stcoTag]) rfl]
    simp [afterHeader]

@[simp] theorem finishTable_out (s : State) : (finishTable s).out = s.out := by
  unfold finishTable; split <;> simp [raise]

@[simp] theorem countDown_out (s : State) : (countDown s).out = s.out := by
  unfold countDown; simp only; split <;> simp

theorem addition_phase (f : JSInt) (t : State) (vf : List Byte)
    (he : t.error = none) (ho : t.owedLength = 0) (hs : t.status = .ADDITION)
    (hvf : vf.length = 4) :
    Consumes f t vf { copied vf t with status := .ENTRY_COUNT } := by
  apply consumes_step f t _ _ he ho
  · simp [hs, statusEnum, hvf]
  · intro b
    simp only [step, hs, stepAddition]
    rw [flush_front vf b _ 4 (by simp [hvf]) rfl]
    simp [copied, hvf]

theorem entryCount_phase (f : JSInt) (t : State) (n : Nat) (a : Atom) (rest : List Atom)
    (he : t.error = none) (ho : t.owedLength = 0) (hs : t.status = .ENTRY_COUNT)
    (hat : t.atoms = a :: rest) (hn : n < 4294967296) (hpos : 0 < n) :
    Consumes f t (u32be n)
      { copied (u32be n) t with
        remainingChunkOffsets := n
        status := if a.type = stcoTag then .UINT32_CHUNK_OFFSET else .UINT64_CHUNK_OFFSET } := by
  apply consumes_step f t _ _ he ho
  · simp [hs, statusEnum]
  · intro b
    have hrd : readUInt32BE (u32be n ++ b) 0 = n := by
      rw [readUInt32BE_append (u32be n) _ rfl, beNat_u32be _ hn]
    simp only [step, hs, stepEntryCount, hrd]
    rw [flush_front (u32be n) b _ 4 (by simp) rfl]
    have : (0 : Int) < (n : Int) := by omega
    simp [copied, hat, this]

theorem entryCount_phase_zero (f : JSInt) (t : State)
    (he : t.error = none) (ho : t.owedLength = 0) (hs : t.status = .ENTRY_COUNT) :
    Consumes f t (u32be 0)
      (finishTable { copied (u32be 0) t with remainingChunkOffsets := 0 }) := by
  apply consumes_step f t _ _ he ho
  · simp [hs, statusEnum]
  · intro b
    have hrd : readUInt32BE (u32be 0 ++ b) 0 = 0 := by
      rw [readUInt32BE_append (u32be 0) _ rfl, beNat_u32be _ (by omega)]
    simp only [step, hs, stepEntryCount, hrd]
    rw [flush_front (u32be 0) b _ 4 (by simp) rfl]
    simp only [copied, finishTable]
    cases popAtom t.atoms <;> simp [raise, hs]

theorem uint32_plain_phase (L : Nat) (t : State) (e : Nat)
    (he : t.error = none) (ho : t.owedLength = 0) (hs : t.status = .UINT32_CHUNK_OFFSET)
    (hw : t.writeChunkOffsetType = .stco) (hfit : e + L < 4294967296) :
    Consumes (.num L) t (u32be e) (countDown (copied (u32be (e + L)) t)) := by
  apply consumes_step _ t _ _ he ho
  · simp [hs, statusEnum]
  · intro b
    have hrd : readUInt32BE (u32be e ++ b) 0 = e := by
      rw [readUInt32BE_append (u32be e) _ rfl, beNat_u32be _ (by omega)]
    have hr : ¬ ((e : Int) + (L : Int) < 0 ∨ (e : Int) + (L : Int) ≥ 4294967296) := by omega
    simp only [step, hs, stepUint32, hw, hrd, hr, if_false]
    have hcast : ((e : Int) + (L : Int)).toNat = e + L := by omega
    rw [hcast, writeFront_append _ _ _ (by simp)]
    rw [flush_front (u32be (e + L)) b _ 4 (by simp) rfl]
    simp only [copied, countDown, finishTable]
    split
    · cases popAtom t.atoms <;> simp [raise, hs, hw]
    · simp [hs, hw]

/-! ## Proofs: the output only grows -/

theorem flush_out_grows (k : Int) (w : Bool) (s : State) : s.out <+: (flush k w s).out := by
  unfold flush
  cases w <;> simp

theorem flush_out_grows_of (k : Int) (w : Bool) (s : State) (o : List Byte) (h : s.out = o) :
    o <+: (flush k w s).out := h ▸ flush_out_grows k w s

@[simp] theorem raise_out (e : JSError) (s : State) : (raise e s).out = s.out := rfl

theorem stepHeader_out_grows (s : State) : s.out <+: (stepHeader s).out := by
  unfold stepHeader
  simp only
  split
  · split
    · exact flush_out_grows _ _ _
    · split
      · split
        · split
          · simp
          · simp [flush, List.append_assoc]
        · exact flush_out_grows _ _ _
      · split <;> exact flush_out_grows _ _ _
  · split
    · simp
    · split
      · simp
      · exact flush_out_grows _ _ _

theorem step_out_grows (f : JSInt) (s : State) : s.out <+: (step f s).out := by
  unfold step
  split
  · exact stepHeader_out_grows s
  · unfold stepExtendedHeader
    split
    · simp
    · split
      · simp
      · exact flush_out_grows 8 true _
  · exact flush_out_grows 4 true _
  · unfold stepEntryCount
    simp only
    split
    · split
      · exact flush_out_grows 4 true _
      · exact flush_out_grows 4 true _
    · rw [finishTable_out]; exact flush_out_grows 4 true _
  · unfold stepUint32
    simp only
    split
    · split
      · simp
      · split
        · simp
        · rw [countDown_out]; simp [flush]
    · split
      · simp [flush]
      · split
        · simp [flush]
        · rw [countDown_out]; simp [flush]
  · unfold stepUint64
    simp only
    split
    · simp
    · rw [countDown_out]; simp [flush]
  · exact List.prefix_rfl
  · exact List.prefix_rfl

theorem drainFuel_out_grows (f : JSInt) (n : Nat) (s : State) :
    s.out <+: (drainFuel f n s).out := by
  induction n generalizing s with
  | zero => exact List.prefix_rfl
  | succ n ih =>
    simp only [drainFuel]
    split
    · exact (step_out_grows f s).trans (ih _)
    · exact List.prefix_rfl

theorem drain_out_grows (f : JSInt) (s : State) : s.out <+: (drain f s).out := by
  unfold drain
  exact drainFuel_out_grows f _ s

theorem push_out_grows (c : List Byte) (s : State) : s.out <+: (push c s).out := by
  unfold push
  simp only
  split
  · exact flush_out_grows_of _ true _ _ rfl
  · exact List.prefix_rfl

theorem feedChunk_out_grows (f : JSInt) (s : State) (c : List Byte) :
    s.out <+: (feedChunk f s c).out := by
  unfold feedChunk
  split
  · exact List.prefix_rfl
  · exact (push_out_grows c s).trans (drain_out_grows f _)

theorem feed_out_grows (f : JSInt) (s : State) (cs : List (List Byte)) :
    s.out <+: (feed f s cs).out := by
  induction cs generalizing s with
  | nil => exact List.prefix_rfl
  | cons c cs ih =>
    simp only [feed, List.foldl_cons]
    exact (feedChunk_out_grows f s c).trans (ih _)

theorem run_out_grows (f : JSInt) (s : State) (cs : List (List Byte)) :
    s.out <+: (run f s cs).out :=
  (drain_out_grows f s).trans (feed_out_grows f _ cs)

/-- What `Consumes` gives for the output of a run. -/
theorem consumes_out {f : JSInt} {s t : State} {pre : List Byte} (h : Consumes f s pre t)
    (cs : List (List Byte)) (rest : List Byte) (hst : s.buffer ++ cs.flatten = pre ++ rest) :
    t.out <+: (feed f (drain f s) cs).out := by
  obtain ⟨b, cs', -, hr⟩ := h s.buffer cs rest hst
  have : run f s cs = run f { t with buffer := b } cs' := hr
  unfold run at this
  rw [this]
  exact run_out_grows f { t with buffer := b } cs'

theorem countDown_of_ne (s : State) (h : s.remainingChunkOffsets - 1 ≠ 0) :
    countDown s = { s with remainingChunkOffsets := s.remainingChunkOffsets - 1 } := by
  simp [countDown, h]

theorem stco_entries_plain (L : Nat) (entries : List Nat) :
    ∀ t : State, entries ≠ [] → t.error = none → t.owedLength = 0 →
      t.status = .UINT32_CHUNK_OFFSET → t.writeChunkOffsetType = .stco →
      t.remainingChunkOffsets = entries.length →
      (∀ e ∈ entries, e + L < 4294967296) →
      ∃ u, Consumes (.num L) t (entries.flatMap u32be) u ∧
        u.out = t.out ++ entries.flatMap (fun e => u32be (e + L)) := by
  induction entries with
  | nil => intro t h; exact absurd rfl h
  | cons e es ih =>
    intro t _ he ho hs hw hrem hfit
    have hph := uint32_plain_phase L t e he ho hs hw (hfit e (by simp))
    by_cases hes : es = []
    · subst hes
      refine ⟨countDown (copied (u32be (e + L)) t), ?_, ?_⟩
      · simpa using hph
      · simp [copied]
    · have hlen : es.length ≠ 0 := by simpa using hes
      have hne : (copied (u32be (e + L)) t).remainingChunkOffsets - 1 ≠ 0 := by
        simp only [copied, hrem, List.length_cons]
        push_cast
        omega
      rw [countDown_of_ne _ hne] at hph
      obtain ⟨u, hu, hout⟩ := ih { copied (u32be (e + L)) t with
          remainingChunkOffsets := (copied (u32be (e + L)) t).remainingChunkOffsets - 1 }
        hes (by simp [copied, he]) (by simp [copied])
        (by simp [copied, hs]) (by simp [copied, hw])
        (by simp [copied, hrem]) (fun x hx => hfit x (by simp [hx]))
      refine ⟨u, ?_, ?_⟩
      · simpa using consumes_trans hph hu
      · rw [hout]; simp [copied]

theorem finishTable_cons (s : State) (a : Atom) (rest : List Atom) (h : s.atoms = a :: rest) :
    finishTable s = { s with atoms := popLoop a.size.toInt rest, status := .HEADER } := by
  simp [finishTable, h, popAtom]

/-- A plain `stco` table from its header to its last entry. -/
theorem stco_plain_consumes (L : Nat) (s : State) (vf : List Byte) (entries : List Nat)
    (he : s.error = none) (ho : s.owedLength = 0) (hs : s.status = .HEADER)
    (hw : s.writeChunkOffsetType = .stco) (htot : s.totalSize < 4294967296)
    (hvf : vf.length = 4) (hsize : 16 + 4 * entries.length < 4294967296)
    (hfit : ∀ e ∈ entries, e + L < 4294967296) :
    ∃ u, Consumes (.num L) s (stcoBox vf entries) u ∧
      u.out = s.out ++ stcoBox vf (entries.map (· + L)) := by
  have h1 := header_stco_plain (.num L) s (16 + 4 * entries.length) he ho hs htot hsize
    (by omega) (by omega)
  have h2 := addition_phase (.num L) (afterHeader stcoTag (16 + 4 * entries.length) s) vf
    (by simp [afterHeader, he]) (by simp [afterHeader]) (by simp [afterHeader]) hvf
  have h12 := consumes_trans h1 h2
  by_cases hes : entries = []
  · subst hes
    have h3 := entryCount_phase_zero (.num L)
      { copied vf (afterHeader stcoTag (16 + 4 * ([] : List Nat).length) s) with
        status := .ENTRY_COUNT }
      (by simp [copied, afterHeader, he]) (by simp [copied]) (by simp)
    have h123 := consumes_trans h12 h3
    refine ⟨_, by simpa [stcoBox] using h123, ?_⟩
    simp [copied, afterHeader, stcoBox]
  · have hpos : 0 < entries.length := List.length_pos.2 hes
    have h3 := entryCount_phase (.num L)
      { copied vf (afterHeader stcoTag (16 + 4 * entries.length) s) with
        status := .ENTRY_COUNT } entries.length
      { size := .num ((16 + 4 * entries.length : Nat) : Int), type := stcoTag, readSize := 8,
        position := s.processedBytes } s.atoms
      (by simp [copied, afterHeader, he]) (by simp [copied]) (by simp)
      (by simp [copied, afterHeader]) (by omega) hpos
    simp only [if_true] at h3
    obtain ⟨u, hu, hout⟩ := stco_entries_plain L entries
      { copied (u32be entries.length)
          { copied vf (afterHeader stcoTag (16 + 4 * entries.length) s) with
            status := .ENTRY_COUNT } with
        remainingChunkOffsets := entries.length
        status := .UINT32_CHUNK_OFFSET }
      hes (by simp [copied, afterHeader, he]) (by simp [copied]) (by simp)
      (by simp [copied, afterHeader, hw]) (by simp) hfit
    refine ⟨u, ?_, ?_⟩
    · have := consumes_trans (consumes_trans h12 h3) hu
      simpa [stcoBox] using this
    · rw [hout]
      simp [copied, afterHeader, stcoBox, List.flatMap_map]

theorem header_co64 (f : JSInt) (s : State) (size : Nat)
    (he : s.error = none) (ho : s.owedLength = 0) (hs : s.status = .HEADER)
    (hsz : size < 4294967296) (h1 : size ≠ 1) (h8 : size ≠ 8) :
    Consumes f s (u32be size ++ co64Tag) (afterHeader co64Tag size s) := by
  apply consumes_step f s _ _ he ho
  · simp [hs, statusEnum, co64Tag]
  · intro b
    have hty : subarray (u32be size ++ co64Tag ++ b) 4 8 = co64Tag :=
      subarray_type _ _ _ rfl rfl
    have hrd : readUInt32BE (u32be size ++ co64Tag ++ b) 0 = size := by
      rw [List.append_assoc, readUInt32BE_append (u32be size) _ rfl, beNat_u32be _ hsz]
    have hv : isValidAtomType co64Tag = true := by decide
    have hne : ¬ (co64Tag = stcoTag) := by decide
    simp only [step, hs, stepHeader, hty, hrd, hv, if_true, hne, if_false]
    have h1' : ¬ ((size : Int) = 1) := by omega
    have h8' : ¬ ((size : Int) = 8) := by omega
    simp only [h1', h8', if_false]
    rw [flush_front (u32be size ++ co64Tag) b _ 8 (by simp [co64Tag]) rfl]
    simp [afterHeader]

theorem uint64_phase (f : JSInt) (L : Nat) (hf : f.toInt = L) (t : State) (e : Nat)
    (he : t.error = none) (ho : t.owedLength = 0) (hs : t.status = .UINT64_CHUNK_OFFSET)
    (hfit : e + L < 18446744073709551616) :
    Consumes f t (u64be e) (countDown (copied (u64be (e + L)) t)) := by
  apply consumes_step _ t _ _ he ho
  · simp [hs, statusEnum]
  · intro b
    have hrd : readBigUInt64BE (u64be e ++ b) 0 = e := by
      rw [readBigUInt64BE_append (u64be e) _ rfl, beNat_u64be _ (by omega)]
    have hr : ¬ ((e : Int) + (L : Int) < 0 ∨ (e : Int) + (L : Int) ≥ 18446744073709551616) := by
      omega
    simp only [step, hs, stepUint64, hrd, hf, hr, if_false]
    have hcast : ((e : Int) + (L : Int)).toNat = e + L := by omega
    rw [hcast, writeFront_append _ _ _ (by simp)]
    rw [flush_front (u64be (e + L)) b _ 8 (by simp) rfl]
    simp only [copied, countDown, finishTable]
    split
    · cases popAtom t.atoms <;> simp [raise, hs]
    · simp [hs]

theorem co64_entries (f : JSInt) (L : Nat) (hf : f.toInt = L) (entries : List Nat) :
    ∀ t : State, entries ≠ [] → t.error = none → t.owedLength = 0 →
      t.status = .UINT64_CHUNK_OFFSET →
      t.remainingChunkOffsets = entries.length →
      (∀ e ∈ entries, e + L < 18446744073709551616) →
      ∃ u, Consumes f t (entries.flatMap u64be) u ∧
        u.out = t.out ++ entries.flatMap (fun e => u64be (e + L)) := by
  induction entries with
  | nil => intro t h; exact absurd rfl h
  | cons e es ih =>
    intro t _ he ho hs hrem hfit
    have hph := uint64_phase f L hf t e he ho hs (hfit e (by simp))
    by_cases hes : es = []
    · subst hes
      refine ⟨countDown (copied (u64be (e + L)) t), ?_, ?_⟩
      · simpa using hph
      · simp [copied]
    · have hlen : es.length ≠ 0 := by simpa using hes
      have hne : (copied (u64be (e + L)) t).remainingChunkOffsets - 1 ≠ 0 := by
        simp only [copied, hrem, List.length_cons]
        push_cast
        omega
      rw [countDown_of_ne _ hne] at hph
      obtain ⟨u, hu, hout⟩ := ih { copied (u64be (e + L)) t with
          remainingChunkOffsets := (copied (u64be (e + L)) t).remainingChunkOffsets - 1 }
        hes (by simp [copied, he]) (by simp [copied])
        (by simp [copied, hs])
        (by simp [copied, hrem]) (fun x hx => hfit x (by simp [hx]))
      refine ⟨u, ?_, ?_⟩
      · simpa using consumes_trans hph hu
      · rw [hout]; simp [copied]

/-- A `co64` table from its header to its last entry. -/
theorem co64_consumes (f : JSInt) (L : Nat) (hf : f.toInt = L) (s : State) (vf : List Byte)
    (entries : List Nat)
    (he : s.error = none) (ho : s.owedLength = 0) (hs : s.status = .HEADER)
    (hvf : vf.length = 4) (hsize : 16 + 8 * entries.length < 4294967296)
    (hfit : ∀ e ∈ entries, e + L < 18446744073709551616) :
    ∃ u, Consumes f s (co64Box vf entries) u ∧
      u.out = s.out ++ co64Box vf (entries.map (· + L)) := by
  have h1 := header_co64 f s (16 + 8 * entries.length) he ho hs hsize (by omega) (by omega)
  have h2 := addition_phase f (afterHeader co64Tag (16 + 8 * entries.length) s) vf
    (by simp [afterHeader, he]) (by simp [afterHeader]) (by simp [afterHeader]) hvf
  have h12 := consumes_trans h1 h2
  by_cases hes : entries = []
  · subst hes
    have h3 := entryCount_phase_zero f
      { copied vf (afterHeader co64Tag (16 + 8 * ([] : List Nat).length) s) with
        status := .ENTRY_COUNT }
      (by simp [copied, afterHeader, he]) (by simp [copied]) (by simp)
    have h123 := consumes_trans h12 h3
    refine ⟨_, by simpa [co64Box] using h123, ?_⟩
    simp [copied, afterHeader, co64Box]
  · have hpos : 0 < entries.length := List.length_pos.2 hes
    have h3 := entryCount_phase f
      { copied vf (afterHeader co64Tag (16 + 8 * entries.length) s) with
        status := .ENTRY_COUNT } entries.length
      { size := .num ((16 + 8 * entries.length : Nat) : Int), type := co64Tag, readSize := 8,
        position := s.processedBytes } s.atoms
      (by simp [copied, afterHeader, he]) (by simp [copied]) (by simp)
      (by simp [copied, afterHeader]) (by omega) hpos
    have hne : ¬ (co64Tag = stcoTag) := by decide
    simp only [hne, if_false] at h3
    obtain ⟨u, hu, hout⟩ := co64_entries f L hf entries
      { copied (u32be entries.length)
          { copied vf (afterHeader co64Tag (16 + 8 * entries.length) s) with
            status := .ENTRY_COUNT } with
        remainingChunkOffsets := entries.length
        status := .UINT64_CHUNK_OFFSET }
      hes (by simp [copied, afterHeader, he]) (by simp [copied]) (by simp)
      (by simp) hfit
    refine ⟨u, ?_, ?_⟩
    · have := consumes_trans (consumes_trans h12 h3) hu
      simpa [co64Box] using this
    · rw [hout]
      simp [copied, afterHeader, co64Box, List.flatMap_map]

/-! ## Claims C1 and C3: the offsets of a table are shifted -/

/-- C1 (as amended): in a run whose total size stays below 2^32, an `stco`
box with a standard header, `N` entries and declared size `16 + 4N`, each
entry of which satisfies `entry + insertedLength < 2^32`, is written to the
output with size, tag, version/flags and entry count unchanged and every
entry increased by `insertedLength`, however the stream is cut into chunks.
The state `s` is any state of such a run in which the machine is about to
read the header of the box (`feed_plain` gives the two mode hypotheses). -/
theorem stco_table_shifted (L : Nat) (s : State) (vf : List Byte) (entries : List Nat)
    (cs : List (List Byte)) (rest : List Byte)
    (he : s.error = none) (ho : s.owedLength = 0) (hs : s.status = .HEADER)
    (hw : s.writeChunkOffsetType = .stco) (htot : s.totalSize < 4294967296)
    (hvf : vf.length = 4) (hsize : 16 + 4 * entries.length < 4294967296)
    (hfit : ∀ e ∈ entries, e + L < 4294967296)
    (hstream : s.buffer ++ cs.flatten = stcoBox vf entries ++ rest) :
    ∃ tail, (feed (.num L) (drain (.num L) s) cs).out =
      s.out ++ stcoBox vf (entries.map (· + L)) ++ tail := by
  obtain ⟨u, hu, hout⟩ := stco_plain_consumes L s vf entries he ho hs hw htot hvf hsize hfit
  have hpre := consumes_out hu cs rest hstream
  rw [hout] at hpre
  obtain ⟨tail, ht⟩ := hpre
  exact ⟨tail, ht.symm⟩

/-- C1, a concrete instance: a two-entry table whose header is cut in the
middle by the chunk boundary. -/
theorem stco_table_shifted_witness :
    ∃ tail, (feed (.num 24) (drain (.num 24) (initState 1000 100 []))
        [[0, 0, 0, 24, 115], [116, 99, 111, 0, 0, 0, 0, 0, 0, 0, 2, 0, 0, 0, 10, 0, 0, 1, 0]]).out =
      [] ++ stcoBox [0, 0, 0, 0] ([10, 256].map (· + 24)) ++ tail :=
  stco_table_shifted 24 (initState 1000 100 []) [0, 0, 0, 0] [10, 256]
    [[0, 0, 0, 24, 115], [116, 99, 111, 0, 0, 0, 0, 0, 0, 0, 2, 0, 0, 0, 10, 0, 0, 1, 0]] []
    rfl rfl rfl rfl (by decide) rfl (by decide) (by decide) (by decide)

set_option maxRecDepth 100000 in
/-- C1 as stated fails: with a total size far below 2^32, an `stco` entry of
`0xFFFFFFFF` makes `writeUInt32BE` throw, and the run stops after the entry
count without writing the entry. -/
theorem stco_entry_out_of_range :
    hideFileInVideo (ftypBox ++ stcoBox [0, 0, 0, 0] [4294967295]) [9, 9] [7] [] =
      { error := some .rangeError
        file := ftypBox ++ (u32be 11 ++ freeTag) ++ [9, 9] ++ [7] ++
          (u32be 20 ++ stcoTag ++ [0, 0, 0, 0] ++ u32be 1) } := by
  decide

/-- C3 (as amended): a `co64` box with a standard header whose entries each
satisfy `entry + insertedLength < 2^64` is written to the output with header,
version/flags, entry count and entry width unchanged and every entry
increased by `insertedLength`, whether `freeHeaderSize` is a number or a
bigint and however the stream is cut into chunks. -/
theorem co64_table_shifted (f : JSInt) (L : Nat) (s : State) (vf : List Byte)
    (entries : List Nat) (cs : List (List Byte)) (rest : List Byte)
    (hf : f = .num L ∨ f = .big L)
    (he : s.error = none) (ho : s.owedLength = 0) (hs : s.status = .HEADER)
    (hvf : vf.length = 4) (hsize : 16 + 8 * entries.length < 4294967296)
    (hfit : ∀ e ∈ entries, e + L < 18446744073709551616)
    (hstream : s.buffer ++ cs.flatten = co64Box vf entries ++ rest) :
    ∃ tail, (feed f (drain f s) cs).out =
      s.out ++ co64Box vf (entries.map (· + L)) ++ tail := by
  have hf' : f.toInt = L := by rcases hf with rfl | rfl <;> rfl
  obtain ⟨u, hu, hout⟩ := co64_consumes f L hf' s vf entries he ho hs hvf hsize hfit
  have hpre := consumes_out hu cs rest hstream
  rw [hout] at hpre
  obtain ⟨tail, ht⟩ := hpre
  exact ⟨tail, ht.symm⟩

/-- C3, a concrete instance with a bigint `freeHeaderSize` and a chunk
boundary inside the first entry. -/
theorem co64_table_shifted_witness :
    ∃ tail, (feed (.big 4294967312) (drain (.big 4294967312) (initState 4294968000 100 []))
        [[0, 0, 0, 24, 99, 111, 54, 52, 0, 0, 0, 0, 0, 0, 0, 1, 0, 0, 0], [0, 0, 0, 1, 0]]).out =
      [] ++ co64Box [0, 0, 0, 0] ([256].map (· + 4294967312)) ++ tail :=
  co64_table_shifted (.big 4294967312) 4294967312 (initState 4294968000 100 []) [0, 0, 0, 0]
    [256] [[0, 0, 0, 24, 99, 111, 54, 52, 0, 0, 0, 0, 0, 0, 0, 1, 0, 0, 0], [0, 0, 0, 1, 0]] []
    (Or.inr rfl) rfl rfl rfl rfl (by decide) (by decide) (by decide)

set_option maxRecDepth 100000 in
/-- C3 as stated fails: a `co64` entry of `2^64 - 1` makes `writeBigUInt64BE`
throw, and the run stops after the entry count without writing the entry. -/
theorem co64_entry_out_of_range :
    hideFileInVideo (ftypBox ++ co64Box [0, 0, 0, 0] [18446744073709551615]) [9, 9] [7] [] =
      { error := some .rangeError
        file := ftypBox ++ (u32be 11 ++ freeTag) ++ [9, 9] ++ [7] ++
          (u32be 24 ++ co64Tag ++ [0, 0, 0, 0] ++ u32be 1) } := by
  decide

/-! ## Claims C2, C4, C6 and C8: failing inputs -/

set_option maxRecDepth 100000 in
/-- C2 (failing input): the total size is 2^32 or more while the payload is
small, so `freeHeaderSize` is the plain number 1024.  The `stco` header is
rewritten to `co64`, but at the first entry `writeBigUInt64BE` is handed a
number and throws a TypeError: no entry is written. -/
theorem stco_upgrade_number_header_throws :
    (feed (.num 1024) (initState 4294968024 1056 []) [stcoBox [0, 0, 0, 0] [10]]).error =
        some .typeError ∧
      (feed (.num 1024) (initState 4294968024 1056 []) [stcoBox [0, 0, 0, 0] [10]]).out =
        u32be 24 ++ co64Tag ++ [0, 0, 0, 0] ++ u32be 1 := by
  decide

set_option maxRecDepth 100000 in
/-- C4 (failing inputs): the rest of the container holds no `stco`/`co64`
box.  First input: one box of size 12; its last 4 bytes stay in the buffer
when the stream ends and never reach the output.  Second input: one `mdat`
box with an extended 64-bit size of 32; after its 16 header bytes the run
stops with a TypeError (`lastAtom.size - 16` mixes a bigint with a number) and
the 16 content bytes are not written. -/
theorem trailing_bytes_dropped :
    hideFileInVideo (ftypBox ++ [0, 0, 0, 12, 97, 98, 99, 100, 1, 2, 3, 4]) [9, 9] [7] [] =
        { error := none
          file := ftypBox ++ (u32be 11 ++ freeTag) ++ [9, 9] ++ [7] ++
            [0, 0, 0, 12, 97, 98, 99, 100] } ∧
      hideFileInVideo (ftypBox ++ [0, 0, 0, 1, 109, 100, 97, 116, 0, 0, 0, 0, 0, 0, 0, 32,
          0, 0, 0, 0, 0, 0, 0, 0, 0, 0, 0, 0, 0, 0, 0, 0]) [9, 9] [7] [] =
        { error := some .typeError
          file := ftypBox ++ (u32be 11 ++ freeTag) ++ [9, 9] ++ [7] ++
            [0, 0, 0, 1, 109, 100, 97, 116, 0, 0, 0, 0, 0, 0, 0, 32] } := by
  decide

/-- C6 (failing input): for a content size of `2^32 - 8` the standard header
is chosen and `writeUInt32BE(2^32)` throws a RangeError. -/
theorem free_header_gap : buildFreeHeader 4294967288 = .error .rangeError := by
  rfl

set_option maxRecDepth 100000 in
/-- C8 (failing input): a box `aaaa` of size 16 holds only a header-only box
of size 8; it is followed by a box `moov` holding an `stco` table with one
entry.  The size-8 box is removed without being counted, `aaaa` stays on the
stack, and the upgrade of the table records an increment of 4 at the position
of `aaaa`, which does not enclose the table. -/
theorem stale_box_gets_increment :
    (feed (.big 4294968312) (initState 4294968364 4294968320 [])
      [[0, 0, 0, 16, 97, 97, 97, 97, 0, 0, 0, 8, 102, 114, 101, 101,
        0, 0, 0, 28, 109, 111, 111, 118] ++ stcoBox [0, 0, 0, 0] [10]]).positionsOfIncrements =
      [(4294968320, 4), (4294968336, 4)] := by
  decide

/-! ## Claims C9 and C10: the post-pass -/

/-- C9 (as amended): the post-pass patch of one ledger entry whose position
lies inside the file.  If the 32-bit field at `p` is 1 and the 64-bit field at
`p + 8` plus the increment fits in 64 bits, that field becomes the sum; if the
32-bit field is not 1 and the field plus the increment fits in 32 bits, the
field at `p` becomes the sum; every other byte of the file is kept. -/
theorem patchEntry_spec (file : List Byte) (p : Nat) (increment : Int)
    (h4 : p + 4 ≤ file.length) :
    (readUInt32BE file p = 1 → p + 16 ≤ file.length →
      0 ≤ (readBigUInt64BE file (p + 8) : Int) + increment →
      (readBigUInt64BE file (p + 8) : Int) + increment < 18446744073709551616 →
      patchEntry file p increment = .ok (file.take (p + 8) ++
        u64be ((readBigUInt64BE file (p + 8) : Int) + increment).toNat ++ file.drop (p + 16))) ∧
    (readUInt32BE file p ≠ 1 →
      0 ≤ (readUInt32BE file p : Int) + increment →
      (readUInt32BE file p : Int) + increment < 4294967296 →
      patchEntry file p increment = .ok (file.take p ++
        u32be ((readUInt32BE file p : Int) + increment).toNat ++ file.drop (p + 4))) := by
  have hin : ¬ ((p : Int) < 0 ∨ (p : Int) + 4 > (file.length : Int)) := by omega
  constructor
  · intro h1 h16 hlo hhi
    have h16' : ¬ ((p : Int) + 16 > (file.length : Int)) := by omega
    have hr : ¬ ((readBigUInt64BE file (p + 8) : Int) + increment < 0 ∨
        (readBigUInt64BE file (p + 8) : Int) + increment ≥ 18446744073709551616) := by omega
    simp [patchEntry, hin, h1, h16', hr, writeAt]
  · intro hne hlo hhi
    have hne' : ¬ ((readUInt32BE file p : Int) = 1) := by omega
    have hr : ¬ ((readUInt32BE file p : Int) + increment < 0 ∨
        (readUInt32BE file p : Int) + increment ≥ 4294967296) := by omega
    simp [patchEntry, hin, hne', hr, writeAt]

/-- C9, concrete instances of both branches: a standard size field 16 grows
to 20, and an extended size `2^32` grows to `2^32 + 4`. -/
theorem patchEntry_spec_witness :
    patchEntry [7, 0, 0, 0, 16, 97, 97, 97, 97, 5] (1 : Nat) 4 =
        .ok [7, 0, 0, 0, 20, 97, 97, 97, 97, 5] ∧
      patchEntry [0, 0, 0, 1, 97, 97, 97, 97, 0, 0, 0, 1, 0, 0, 0, 0, 9] (0 : Nat) 4 =
        .ok [0, 0, 0, 1, 97, 97, 97, 97, 0, 0, 0, 1, 0, 0, 0, 4, 9] :=
  ⟨(patchEntry_spec [7, 0, 0, 0, 16, 97, 97, 97, 97, 5] 1 4 (by decide)).2
      (by decide) (by decide) (by decide),
   (patchEntry_spec [0, 0, 0, 1, 97, 97, 97, 97, 0, 0, 0, 1, 0, 0, 0, 0, 9] 0 4 (by decide)).1
      (by decide) (by decide) (by decide) (by decide)⟩

/-- C9 as stated fails: with the marker 1 at the position and an extended
size of `2^64 - 1`, the sum does not fit and `writeBigUInt64BE` throws; the
64-bit field does not become old value + increment. -/
theorem patchEntry_large_out_of_range :
    patchEntry [0, 0, 0, 1, 97, 97, 97, 97, 255, 255, 255, 255, 255, 255, 255, 255] 0 4 =
      .error .rangeError := by
  rfl

/-- C10: when the 32-bit size field at a ledger position holds `s ≠ 1` and
`s + increment ≥ 2^32`, the post-pass stops with a RangeError and the file is
left as it was before this entry: no truncated or wrapped size is written. -/
theorem patch_overflow_reported (file : List Byte) (p : Nat) (increment : Int)
    (rest : List (Int × Int)) (h4 : p + 4 ≤ file.length)
    (hne : readUInt32BE file p ≠ 1)
    (hov : (readUInt32BE file p : Int) + increment ≥ 4294967296) :
    patchEntry file p increment = .error .rangeError ∧
      patchAll file ((↑p, increment) :: rest) = { error := some .rangeError, file := file } := by
  have hin : ¬ ((p : Int) < 0 ∨ (p : Int) + 4 > (file.length : Int)) := by omega
  have hne' : ¬ ((readUInt32BE file p : Int) = 1) := by omega
  have hr : (readUInt32BE file p : Int) + increment < 0 ∨
      (readUInt32BE file p : Int) + increment ≥ 4294967296 := Or.inr hov
  have h : patchEntry file p increment = .error .rangeError := by
    simp [patchEntry, hin, hne', hr]
  exact ⟨h, by simp [patchAll, h]⟩

/-- C10, a concrete instance: a size field of `2^32 - 4` and an increment of 400. -/
theorem patch_overflow_reported_witness :
    patchEntry [255, 255, 255, 252, 109, 111, 111, 118] (0 : Nat) 400 = .error .rangeError ∧
      patchAll [255, 255, 255, 252, 109, 111, 111, 118] [(((0 : Nat) : Int), 400)] =
        { error := some .rangeError, file := [255, 255, 255, 252, 109, 111, 111, 118] } :=
  patch_overflow_reported [255, 255, 255, 252, 109, 111, 111, 118] 0 400 [] (by decide)
    (by decide) (by decide)

/-! ## Proofs: the invariant of the streamed pass -/

theorem stackOk_mono {P0 pb pb' : Int} {l : List Atom} (h : StackOk P0 pb l) (hle : pb ≤ pb') :
    StackOk P0 pb' l := by
  obtain ⟨h0, h1, h2⟩ := h
  refine ⟨by omega, fun a ha => ?_, h2⟩
  obtain ⟨x, y, z⟩ := h1 a ha
  exact ⟨x, by omega, z⟩

theorem stackOk_tail {P0 pb : Int} {a : Atom} {l : List Atom} (h : StackOk P0 pb (a :: l)) :
    StackOk P0 pb l := by
  obtain ⟨h0, h1, h2⟩ := h
  exact ⟨h0, fun x hx => h1 x (List.mem_cons_of_mem _ hx), (List.pairwise_cons.1 h2).2⟩

/-- After the top atom is removed the cursor may fall back to its position. -/
theorem stackOk_fall {P0 pb pb' : Int} {a : Atom} {l : List Atom} (h : StackOk P0 pb (a :: l))
    (hge : a.position ≤ pb') : StackOk P0 pb' l := by
  obtain ⟨h0, h1, h2⟩ := h
  have ha := h1 a (List.mem_cons_self _ _)
  have hp := List.pairwise_cons.1 h2
  refine ⟨by omega, fun x hx => ?_, hp.2⟩
  obtain ⟨u, v, w⟩ := h1 x (List.mem_cons_of_mem _ hx)
  have := hp.1 x hx
  exact ⟨u, by omega, w⟩

theorem stackOk_popLoop {P0 pb : Int} (c : Int) (l : List Atom) (h : StackOk P0 pb l) :
    StackOk P0 pb (popLoop c l) := by
  induction l generalizing c with
  | nil => simpa [popLoop] using h
  | cons b rest ih =>
    simp only [popLoop]
    split
    · exact ih _ (stackOk_tail h)
    · obtain ⟨h0, h1, h2⟩ := h
      refine ⟨h0, ?_, ?_⟩
      · intro a ha
        rcases List.mem_cons.1 ha with rfl | ha
        · exact h1 b (List.mem_cons_self _ _)
        · exact h1 a (List.mem_cons_of_mem _ ha)
      · have hp := List.pairwise_cons.1 h2
        exact List.pairwise_cons.2 ⟨hp.1, hp.2⟩

theorem stackOk_push {P0 pb : Int} {l : List Atom} (h : StackOk P0 pb l) (sz : JSInt)
    (ty : List Byte) (r : Int) (hsz : 0 ≤ sz.toInt) :
    StackOk P0 (pb + 8) ({ size := sz, type := ty, readSize := r, position := pb } :: l) := by
  obtain ⟨h0, h1, h2⟩ := h
  refine ⟨by omega, ?_, ?_⟩
  · intro a ha
    rcases List.mem_cons.1 ha with rfl | ha
    · exact ⟨h0, le_refl _, hsz⟩
    · obtain ⟨x, y, z⟩ := h1 a ha
      exact ⟨x, by omega, z⟩
  · refine List.pairwise_cons.2 ⟨fun x hx => ?_, h2⟩
    exact (h1 x hx).2.1

theorem ledgerOk_ledgerAdd {P0 : Int} (m : List (Int × Int)) (p inc : Int)
    (h : LedgerOk P0 m) (hp : P0 ≤ p) : LedgerOk P0 (ledgerAdd m p inc) := by
  induction m with
  | nil =>
    intro e he
    simp only [ledgerAdd, List.mem_singleton] at he
    subst he; exact hp
  | cons x rest ih =>
    obtain ⟨q, v⟩ := x
    simp only [ledgerAdd]
    split
    · intro e he
      rcases List.mem_cons.1 he with rfl | he
      · exact h (q, v) (List.mem_cons_self _ _)
      · exact h e (List.mem_cons_of_mem _ he)
    · intro e he
      rcases List.mem_cons.1 he with rfl | he
      · exact h (q, v) (List.mem_cons_self _ _)
      · exact ih (fun e he => h e (List.mem_cons_of_mem _ he)) e he

theorem ledgerOk_edit {P0 : Int} (inc : Int) (l : List Atom) :
    ∀ m : List (Int × Int), LedgerOk P0 m → (∀ a ∈ l, P0 ≤ a.position) →
      LedgerOk P0 (editPreviousSizes m inc l) := by
  induction l with
  | nil => intro m h _; simpa [editPreviousSizes] using h
  | cons a rest ih =>
    intro m h hl
    simp only [editPreviousSizes]
    exact ih _ (ledgerOk_ledgerAdd m _ _ h (hl a (List.mem_cons_self _ _)))
      (fun x hx => hl x (List.mem_cons_of_mem _ hx))

theorem flush_processedBytes (k : Int) (s : State) :
    (flush k true s).processedBytes =
      s.processedBytes + (if k > (s.buffer.length : Int) then (s.buffer.length : Int) else k) := rfl

@[simp] theorem flush_ledger (k : Int) (w : Bool) (s : State) :
    (flush k w s).positionsOfIncrements = s.positionsOfIncrements := rfl

theorem flush_processedBytes_le (k : Int) (w : Bool) (s : State) (hk : 0 ≤ k) :
    s.processedBytes ≤ (flush k w s).processedBytes := by
  cases w
  · simp [flush]
  · rw [flush_processedBytes]; split <;> omega

theorem sound_flush {P0 : Int} (k : Int) (w : Bool) (s : State) (hk : 0 ≤ k)
    (h : Sound P0 s) : Sound P0 (flush k w s) := by
  intro he
  obtain ⟨h1, h2⟩ := h he
  exact ⟨stackOk_mono h1 (flush_processedBytes_le k w s hk), h2⟩

theorem sound_finishTable {P0 : Int} (s : State) (h : Sound P0 s) : Sound P0 (finishTable s) := by
  unfold finishTable
  split
  · intro he; simp [raise] at he
  · rename_i a rest hpop
    intro he
    obtain ⟨h1, h2⟩ := h he
    refine ⟨?_, h2⟩
    cases hat : s.atoms with
    | nil => rw [hat] at hpop; simp [popAtom] at hpop
    | cons x xs =>
      rw [hat] at hpop h1
      simp only [popAtom, Option.some.injEq, Prod.mk.injEq] at hpop
      obtain ⟨-, rfl⟩ := hpop
      exact stackOk_popLoop _ _ (stackOk_tail h1)

theorem sound_countDown {P0 : Int} (s : State) (h : Sound P0 s) : Sound P0 (countDown s) := by
  unfold countDown
  simp only
  split
  · exact sound_finishTable _ h
  · exact h

theorem flush_processedBytes_eq (k : Nat) (s : State) (h : k ≤ s.buffer.length) :
    (flush (k : Int) true s).processedBytes = s.processedBytes + k := by
  rw [flush_processedBytes]
  have : ¬ ((k : Int) > (s.buffer.length : Int)) := by omega
  simp [this]

theorem stackOk_pushed {P0 pb : Int} {l : List Atom} (h : StackOk P0 pb l) (size : Nat)
    (ty : List Byte) :
    StackOk P0 (pb + 8)
      (if (size : Int) = 8 then l
        else { size := .num size, type := ty, readSize := 8, position := pb } :: l) := by
  split
  · exact stackOk_mono h (by omega)
  · exact stackOk_push h _ _ _ (by simp [JSInt.toInt])

theorem mem_tail_pushed {l : List Atom} (size : Nat) (ty : List Byte) (pb : Int) (x : Atom)
    (hx : x ∈ (if (size : Int) = 8 then l
        else { size := .num size, type := ty, readSize := 8, position := pb } :: l).tail) :
    x ∈ l := by
  split at hx
  · exact List.mem_of_mem_tail hx
  · simpa using hx

theorem sound_flush8_push {P0 : Int} (s t : State) (size : Nat) (ty : List Byte)
    (hlen : 8 ≤ t.buffer.length) (hpb : t.processedBytes = s.processedBytes)
    (hat : t.atoms =
      { size := .num size, type := ty, readSize := 8, position := s.processedBytes } :: s.atoms)
    (hled : t.positionsOfIncrements = s.positionsOfIncrements) (herr : t.error = s.error)
    (h : Sound P0 s) : Sound P0 (flush 8 true t) := by
  intro he
  obtain ⟨h1, h2⟩ := h (by rw [← herr]; simpa using he)
  refine ⟨?_, by simpa [hled] using h2⟩
  have := flush_processedBytes_eq 8 t hlen
  simp only [Nat.cast_ofNat] at this
  rw [this, hpb, flush_atoms, hat]
  exact stackOk_push h1 _ _ _ (by simp [JSInt.toInt])

theorem sound_flush8_pushed {P0 : Int} (s t : State) (size : Nat) (ty : List Byte)
    (hlen : 8 ≤ t.buffer.length) (hpb : t.processedBytes = s.processedBytes)
    (hat : t.atoms = if (size : Int) = 8 then s.atoms
      else { size := .num size, type := ty, readSize := 8, position := s.processedBytes } :: s.atoms)
    (hled : t.positionsOfIncrements = s.positionsOfIncrements) (herr : t.error = s.error)
    (h : Sound P0 s) : Sound P0 (flush 8 true t) := by
  intro he
  obtain ⟨h1, h2⟩ := h (by rw [← herr]; simpa using he)
  refine ⟨?_, by simpa [hled] using h2⟩
  have := flush_processedBytes_eq 8 t hlen
  simp only [Nat.cast_ofNat] at this
  rw [this, hpb, flush_atoms, hat]
  exact stackOk_pushed h1 _ _

theorem sound_upgrade {P0 : Int} (s t : State) (size : Nat) (ty w : List Byte) (inc : Int)
    (hlen : 8 ≤ t.buffer.length) (hpb : t.processedBytes = s.processedBytes)
    (hat : t.atoms = if (size : Int) = 8 then s.atoms
      else { size := .num size, type := ty, readSize := 8, position := s.processedBytes } :: s.atoms)
    (hled : t.positionsOfIncrements =
      editPreviousSizes s.positionsOfIncrements inc t.atoms.tail.reverse)
    (herr : t.error = s.error) (h : Sound P0 s) :
    Sound P0 (flush 4 true { flush 4 true t with
      buffer := writeFront (flush 4 true t).buffer w }) := by
  intro he
  obtain ⟨h1, h2⟩ := h (by rw [← herr]; simpa using he)
  constructor
  · have e1 := flush_processedBytes_eq 4 t (by omega)
    have e2 := flush_processedBytes_eq 4 { flush 4 true t with
      buffer := writeFront (flush 4 true t).buffer w } (by
        simp only [writeFront_length]
        rw [flush_buffer_length 4 true t (by omega)]
        simp; omega)
    simp only [Nat.cast_ofNat] at e1 e2
    rw [e2]
    simp only [flush_atoms]
    rw [e1, hpb, hat]
    have := stackOk_pushed h1 size ty
    convert this using 1
    omega
  · simp only [flush_ledger]
    rw [hled]
    refine ledgerOk_edit _ _ _ h2 ?_
    intro a ha
    rw [List.mem_reverse, hat] at ha
    exact (h1.2.1 a (mem_tail_pushed _ _ _ _ ha)).1

theorem stepHeader_sound {P0 : Int} (s : State) (hlen : 8 ≤ s.buffer.length)
    (h : Sound P0 s) : Sound P0 (stepHeader s) := by
  unfold stepHeader
  simp only
  split
  · split
    · exact sound_flush8_push s _ _ _ hlen rfl rfl rfl rfl h
    · split
      · split
        · split
          · intro he; simp [raise] at he
          · exact sound_upgrade s _ (readUInt32BE s.buffer 0) (subarray s.buffer 4 8) _ _
              (by simpa using hlen) rfl rfl rfl rfl h
        · exact sound_flush8_pushed s _ _ _ hlen rfl rfl rfl rfl h
      · split
        · exact sound_flush8_pushed s _ _ _ hlen rfl rfl rfl rfl h
        · exact sound_flush8_pushed s _ _ _ hlen rfl rfl rfl rfl h
  · split
    · intro he; simp [raise] at he
    · rename_i lastAtom rest hpop
      split
      · intro he; simp [raise] at he
      · rename_i v hv
        intro he
        obtain ⟨h1, h2⟩ := h (by simpa using he)
        refine ⟨?_, h2⟩
        cases hat : s.atoms with
        | nil => rw [hat] at hpop; simp [popAtom] at hpop
        | cons x xs =>
          rw [hat] at hpop h1
          simp only [popAtom, Option.some.injEq, Prod.mk.injEq] at hpop
          obtain ⟨rfl, rfl⟩ := hpop
          simp only [flush_atoms]
          have hx := h1.2.1 x (List.mem_cons_self _ _)
          have hv0 : 0 ≤ v := by
            have := hx.2.2
            simp only [] at hv
            rw [hv] at this
            simpa [JSInt.toInt] using this
          refine stackOk_popLoop _ _ (stackOk_fall h1 ?_)
          rw [flush_processedBytes]
          simp only []
          split <;> split <;> omega

theorem sound_of_le {P0 : Int} (s t : State) (he : t.error = none → s.error = none)
    (hpb : s.processedBytes ≤ t.processedBytes) (hat : t.atoms = s.atoms)
    (hled : t.positionsOfIncrements = s.positionsOfIncrements) (h : Sound P0 s) :
    Sound P0 t := by
  intro h0
  obtain ⟨h1, h2⟩ := h (he h0)
  rw [hat, hled]
  exact ⟨stackOk_mono h1 hpb, h2⟩

theorem stepExtendedHeader_sound {P0 : Int} (s : State) (h : Sound P0 s) :
    Sound P0 (stepExtendedHeader s) := by
  unfold stepExtendedHeader
  split
  · intro he; simp [raise] at he
  · rename_i a rest hat
    split
    · intro he; simp [raise] at he
    · rename_i hlen
      intro he
      obtain ⟨h1, h2⟩ := h (by simpa using he)
      refine ⟨?_, h2⟩
      rw [hat] at h1
      obtain ⟨h10, h11, h12⟩ := h1
      have ha := h11 a (List.mem_cons_self _ _)
      have hp := List.pairwise_cons.1 h12
      have hk := flush_processedBytes_le 8 true { s with
        atoms := { a with size := .big (readBigUInt64BE s.buffer 8), readSize := 16 } :: rest }
        (by omega)
      simp only [] at hk
      simp only [flush_atoms]
      refine ⟨by omega, ?_, List.pairwise_cons.2 ⟨hp.1, hp.2⟩⟩
      intro x hx
      rcases List.mem_cons.1 hx with rfl | hx
      · exact ⟨ha.1, by simp only []; omega, by simp [JSInt.toInt]⟩
      · obtain ⟨u, v, w⟩ := h11 x (List.mem_cons_of_mem _ hx)
        exact ⟨u, by omega, w⟩

theorem stepEntryCount_sound {P0 : Int} (s : State) (h : Sound P0 s) :
    Sound P0 (stepEntryCount s) := by
  have hs1 : Sound P0 (flush 4 true { s with remainingChunkOffsets := readUInt32BE s.buffer 0 }) :=
    sound_flush 4 true _ (by omega) (sound_of_le s _ (fun h => h) (le_refl _) rfl rfl h)
  unfold stepEntryCount
  simp only
  split
  · split
    · intro he; simp [raise] at he
    · exact sound_of_le _ _ (fun h => h) (le_refl _) rfl rfl hs1
  · exact sound_finishTable _ hs1

theorem stepUint32_sound {P0 : Int} (f : JSInt) (s : State) (h : Sound P0 s) :
    Sound P0 (stepUint32 f s) := by
  unfold stepUint32
  simp only
  split
  · split
    · intro he; simp [raise] at he
    · split
      · intro he; simp [raise] at he
      · exact sound_countDown _ (sound_flush 4 true _ (by omega)
          (sound_of_le s _ (fun h => h) (le_refl _) rfl rfl h))
  · split
    · intro he; simp [raise] at he
    · split
      · intro he; simp [raise] at he
      · refine sound_countDown _ (sound_of_le s _ (fun h => h) ?_ rfl rfl h)
        simp [flush]

theorem stepUint64_sound {P0 : Int} (f : JSInt) (s : State) (h : Sound P0 s) :
    Sound P0 (stepUint64 f s) := by
  unfold stepUint64
  simp only
  split
  · intro he; simp [raise] at he
  · exact sound_countDown _ (sound_flush 8 true _ (by omega)
      (sound_of_le s _ (fun h => h) (le_refl _) rfl rfl h))

theorem step_sound {P0 : Int} (f : JSInt) (s : State) (hc : canStep s = true)
    (h : Sound P0 s) : Sound P0 (step f s) := by
  unfold canStep at hc
  simp only [Bool.and_eq_true] at hc
  obtain ⟨-, hc⟩ := hc
  unfold step
  cases hst : s.status <;> simp [hst, statusEnum] at hc ⊢
  · exact stepHeader_sound s hc h
  · exact stepExtendedHeader_sound s h
  · exact sound_of_le _ _ (fun h => h) (le_refl _) rfl rfl (sound_flush 4 true s (by omega) h)
  · exact stepEntryCount_sound s h
  · exact stepUint32_sound f s h
  · exact stepUint64_sound f s h

theorem drainFuel_sound {P0 : Int} (f : JSInt) (n : Nat) (s : State) (h : Sound P0 s) :
    Sound P0 (drainFuel f n s) := by
  induction n generalizing s with
  | zero => exact h
  | succ n ih =>
    simp only [drainFuel]
    split
    · rename_i hc
      exact ih _ (step_sound f s hc h)
    · exact h

theorem drain_sound {P0 : Int} (f : JSInt) (s : State) (h : Sound P0 s) :
    Sound P0 (drain f s) := by
  unfold drain
  exact drainFuel_sound f _ s h

theorem push_sound {P0 : Int} (c : List Byte) (s : State) (h : Sound P0 s) :
    Sound P0 (push c s) := by
  unfold push
  simp only
  split
  · rename_i ho
    exact sound_flush _ true _ (le_of_lt ho) (sound_of_le s _ (fun h => h) (le_refl _) rfl rfl h)
  · exact sound_of_le s _ (fun h => h) (le_refl _) rfl rfl h

theorem feed_sound {P0 : Int} (f : JSInt) (s : State) (cs : List (List Byte))
    (h : Sound P0 s) : Sound P0 (feed f s cs) := by
  induction cs generalizing s with
  | nil => exact h
  | cons c cs ih =>
    simp only [feed, List.foldl_cons]
    apply ih
    unfold feedChunk
    split
    · exact h
    · exact drain_sound f _ (push_sound c s h)

theorem initState_sound (totalSize P0 : Int) (out : List Byte) :
    Sound P0 (initState totalSize P0 out) := by
  intro _
  exact ⟨⟨le_refl _, by simp [initState], by simp [initState]⟩, by simp [initState, LedgerOk]⟩

/-! ## Claim C5: the layout of the output -/

theorem writeAt_take (file bytes : List Byte) (q n : Nat) (hn : n ≤ q) (hq : q ≤ file.length) :
    (writeAt file q bytes).take n = file.take n := by
  unfold writeAt
  rw [List.append_assoc, List.take_append_of_le_length (by simp; omega)]
  rw [List.take_take]
  simp [hn]

theorem patchEntry_take (file file1 : List Byte) (p inc : Int) (n : Nat) (hn : (n : Int) ≤ p)
    (h : patchEntry file p inc = .ok file1) : file1.take n = file.take n := by
  unfold patchEntry at h
  split at h
  · cases h
  · rename_i hin
    simp only at h
    split at h
    · split at h
      · cases h
      · split at h
        · cases h
        · injection h with h
          subst h
          exact writeAt_take _ _ _ _ (by omega) (by omega)
    · split at h
      · cases h
      · injection h with h
        subst h
        exact writeAt_take _ _ _ _ (by omega) (by omega)

theorem patchAll_take (n : Nat) (m : List (Int × Int)) :
    ∀ file : List Byte, LedgerOk n m → (patchAll file m).file.take n = file.take n := by
  induction m with
  | nil => intro file _; rfl
  | cons e rest ih =>
    intro file h
    obtain ⟨p, inc⟩ := e
    simp only [patchAll]
    split
    · rfl
    · rename_i file1 hp
      rw [ih file1 (fun x hx => h x (List.mem_cons_of_mem _ hx))]
      exact patchEntry_take file file1 p inc n (h (p, inc) (List.mem_cons_self _ _)) hp

/-- C5 (as amended): when bytes 4..8 of the video are `ftyp`, the 32-bit size
`F` at offset 0 is at least 1 and the free-header builder succeeds, the output
file starts with the first `F` bytes of the video, then the free header, the
payload and the filler; whatever the streamed pass writes for the rest of the
video comes after them. -/
theorem output_layout (video attach confusionData : List Byte) (cuts : List Nat)
    (hdr : List Byte) (fhs : JSInt)
    (htag : (video.drop 4).take 4 = ftypTag)
    (hF : 0 < readUInt32BE video 0)
    (hhdr : buildFreeHeader (attach.length + confusionData.length) = .ok (hdr, fhs)) :
    ∃ tail, (hideFileInVideo video attach confusionData cuts).file =
      video.take (readUInt32BE video 0) ++ hdr ++ attach ++ confusionData ++ tail := by
  have hlen : 8 ≤ video.length := by
    have := congrArg List.length htag
    simp [ftypTag] at this
    omega
  have hhb : video.take 8 ++ List.replicate (8 - video.length) 0 = video.take 8 := by
    have : 8 - video.length = 0 := by omega
    simp [this]
  have hty : subarray (video.take 8) 4 8 = ftypTag := by
    have h4 : adjustOffset 4 (video.take 8).length = 4 := by
      have := adjustOffset_natCast 4 (video.take 8).length
      simp only [Nat.cast_ofNat] at this
      rw [this]; simp; omega
    have h8 : adjustOffset 8 (video.take 8).length = 8 := by
      have := adjustOffset_natCast 8 (video.take 8).length
      simp only [Nat.cast_ofNat] at this
      rw [this]; simp; omega
    simp only [subarray, h4, h8]
    rw [← htag, List.drop_take]
    simp [List.take_take]
  have hrd : readUInt32BE (video.take 8) 0 = readUInt32BE video 0 := by
    simp [readUInt32BE, List.take_take]
  unfold hideFileInVideo
  simp only [hhb, hty, hrd, ne_eq, not_true_eq_false, if_false, hhdr]
  have hF' : ¬ (readUInt32BE video 0 = 0) := by omega
  simp only [hF', if_false]
  generalize hout0 : video.take (readUInt32BE video 0) ++ hdr ++ attach ++ confusionData = out0
  generalize hT : ((video.length : Int) + ((attach.length + confusionData.length : Nat) : Int) +
    (hdr.length : Int)) = T
  set S := feed fhs (initState T out0.length out0)
    (splitChunks cuts (video.drop (readUInt32BE video 0))) with hS
  have hgrow : out0 <+: S.out := feed_out_grows fhs (initState T out0.length out0) _
  have hsound : Sound (out0.length : Int) S := feed_sound fhs _ _ (initState_sound _ _ _)
  obtain ⟨t, ht⟩ := hgrow
  split
  · exact ⟨t, ht.symm⟩
  · rename_i hnone
    have htake := patchAll_take out0.length _ S.out (hsound hnone).2
    refine ⟨List.drop out0.length (patchAll S.out S.positionsOfIncrements).file, ?_⟩
    have h2 : S.out.take out0.length = out0 := by
      rw [← ht]; simp
    rw [h2] at htake
    conv_lhs => rw [← List.take_append_drop out0.length (patchAll S.out S.positionsOfIncrements).file]
    rw [htake]

/-! ## Claim C7: the upgrade of a table -/

theorem flush4_twice (t : State) (p q w b : List Byte) (hp : p.length = 4)
    (hq : q.length = 4) (hw : w.length = 4) (hb : t.buffer = p ++ (q ++ b)) :
    flush 4 true { flush 4 true t with buffer := writeFront (flush 4 true t).buffer w } =
      { t with
        buffer := b
        owedLength := 0
        out := t.out ++ (p ++ w)
        offset := t.offset + 8
        processedBytes := t.processedBytes + 8 } := by
  rw [flush_front p (q ++ b) t 4 (by simp [hp]) hb]
  simp only []
  rw [writeFront_append q b w (by simp [hq, hw])]
  rw [flush_front w b _ 4 (by simp [hw]) rfl]
  simp [List.append_assoc]
  omega

/-- The `HEADER` iteration on the header of an `stco` table with `N` entries
when the total size is 2^32 or more: the table is upgraded. -/
theorem step_stco_upgrade (f : JSInt) (s : State) (N : Nat) (b : List Byte)
    (hs : s.status = .HEADER) (hbuf : s.buffer = u32be (16 + 4 * N) ++ stcoTag ++ b)
    (htot : s.totalSize ≥ 4294967296) (hN : 16 + 8 * N < 4294967296) :
    step f s = { s with
      buffer := b
      owedLength := 0
      out := s.out ++ (u32be (16 + 8 * N) ++ co64Tag)
      offset := s.offset + 8
      processedBytes := s.processedBytes + 8
      atoms := { size := .num ((16 + 4 * N : Nat) : Int), type := stcoTag, readSize := 8,
                 position := s.processedBytes } :: s.atoms
      status := .ADDITION
      writeChunkOffsetType := .co64
      totalSize := s.totalSize + 4 * N
      positionsOfIncrements :=
        editPreviousSizes s.positionsOfIncrements (4 * N) s.atoms.reverse } := by
  have hty : subarray (u32be (16 + 4 * N) ++ stcoTag ++ b) 4 8 = stcoTag :=
    subarray_type _ _ _ rfl rfl
  have hrd : readUInt32BE (u32be (16 + 4 * N) ++ stcoTag ++ b) 0 = 16 + 4 * N := by
    rw [List.append_assoc, readUInt32BE_append (u32be (16 + 4 * N)) _ rfl,
      beNat_u32be _ (by omega)]
  have hv : isValidAtomType stcoTag = true := by decide
  have h1' : ¬ (((16 + 4 * N : Nat) : Int) = 1) := by omega
  have h8' : ¬ (((16 + 4 * N : Nat) : Int) = 8) := by omega
  have hinc : ((16 + 4 * N : Nat) : Int) - (8 + 4 + 4) = 4 * (N : Int) := by push_cast; omega
  have hnew : (((16 + 4 * N : Nat) : Int) - (8 + 4 + 4)) * 2 + (8 + 4 + 4) =
      ((16 + 8 * N : Nat) : Int) := by push_cast; omega
  have hr : ¬ ((((16 + 8 * N : Nat) : Int)) < 0 ∨ ((16 + 8 * N : Nat) : Int) ≥ 4294967296) := by
    omega
  simp only [step, hs, stepHeader, hbuf, hty, hrd, hv, if_true, h1', h8', if_false, htot]
  simp only [hnew, hr, if_false, Int.toNat_ofNat, List.tail_cons]
  simp only [hinc]
  rw [List.append_assoc (u32be (16 + 4 * N)), writeFront_append _ _ _ (by simp)]
  rw [flush4_twice _ (u32be (16 + 8 * N)) stcoTag co64Tag b rfl rfl rfl rfl]

theorem ledgerGet_ledgerAdd (m : List (Int × Int)) (q inc p : Int) :
    ledgerGet (ledgerAdd m q inc) p = ledgerGet m p + (if q = p then inc else 0) := by
  induction m with
  | nil => simp [ledgerAdd, ledgerGet]
  | cons x rest ih =>
    obtain ⟨k, v⟩ := x
    simp only [ledgerAdd]
    by_cases hk : k = q
    · subst hk
      by_cases hp : k = p
      · simp [ledgerGet, hp]
      · simp [ledgerGet, hp]
    · by_cases hp : k = p
      · subst hp
        have : ¬ (q = k) := fun h => hk h.symm
        simp [ledgerGet, hk, this]
      · simp [ledgerGet, hk, hp, ih]

theorem ledgerGet_edit (inc p : Int) (l : List Atom) :
    ∀ m : List (Int × Int), ledgerGet (editPreviousSizes m inc l) p =
      ledgerGet m p + inc * ((l.map Atom.position).count p) := by
  induction l with
  | nil => intro m; simp [editPreviousSizes]
  | cons a rest ih =>
    intro m
    simp only [editPreviousSizes, ih, ledgerGet_ledgerAdd, List.map_cons, List.count_cons]
    by_cases h : a.position = p
    · simp [h]; ring
    · simp [h]

/-- In every state of a run the open atoms have pairwise different
positions. -/
theorem sound_nodup {P0 : Int} (s : State) (h : Sound P0 s) (he : s.error = none) :
    (s.atoms.map Atom.position).Nodup := by
  have hp := (h he).1.2.2
  rw [List.Nodup, List.pairwise_map]
  refine hp.imp ?_
  intro a b hab
  omega

/-- C7: when the `HEADER` iteration upgrades an `stco` table with `N` entries
(declared size `16 + 4N`, total size at least 2^32), the ledger entry at the
position of every atom open on the stack grows by exactly `4N`, no other
ledger entry changes, and the size field written for the table is the old
size plus the same `4N`.  The open atoms have pairwise different positions
in every state of a run (`sound_nodup`, `feed_sound`). -/
theorem stco_upgrade_ledger (f : JSInt) (s : State) (N : Nat) (b : List Byte)
    (hs : s.status = .HEADER) (hbuf : s.buffer = u32be (16 + 4 * N) ++ stcoTag ++ b)
    (htot : s.totalSize ≥ 4294967296) (hN : 16 + 8 * N < 4294967296)
    (hpos : (s.atoms.map Atom.position).Nodup) :
    (∀ a ∈ s.atoms, ledgerGet (step f s).positionsOfIncrements a.position =
        ledgerGet s.positionsOfIncrements a.position + 4 * N) ∧
      (∀ p, p ∉ s.atoms.map Atom.position →
        ledgerGet (step f s).positionsOfIncrements p = ledgerGet s.positionsOfIncrements p) ∧
      (step f s).out = s.out ++ (u32be (16 + 4 * N + 4 * N) ++ co64Tag) ∧
      (step f s).writeChunkOffsetType = .co64 := by
  rw [step_stco_upgrade f s N b hs hbuf htot hN]
  simp only [ledgerGet_edit, List.map_reverse, List.count_reverse]
  refine ⟨?_, ?_, ?_, trivial⟩
  · intro a ha
    have hmem : a.position ∈ s.atoms.map Atom.position := List.mem_map_of_mem _ ha
    rw [List.count_eq_one_of_mem hpos hmem]
    simp
  · intro p hp
    rw [List.count_eq_zero_of_not_mem hp]
    simp
  · have : 16 + 4 * N + 4 * N = 16 + 8 * N := by omega
    rw [this]

/-- C7, a concrete instance: the table has two entries and two boxes are open. -/
theorem stco_upgrade_ledger_witness :
    (∀ a ∈ upgradeExample.atoms,
        ledgerGet (step (.big 4294967312) upgradeExample).positionsOfIncrements a.position =
          ledgerGet upgradeExample.positionsOfIncrements a.position + 4 * (2 : Nat)) ∧
      (∀ p, p ∉ upgradeExample.atoms.map Atom.position →
        ledgerGet (step (.big 4294967312) upgradeExample).positionsOfIncrements p =
          ledgerGet upgradeExample.positionsOfIncrements p) ∧
      (step (.big 4294967312) upgradeExample).out =
        upgradeExample.out ++ (u32be (16 + 4 * 2 + 4 * 2) ++ co64Tag) ∧
      (step (.big 4294967312) upgradeExample).writeChunkOffsetType = .co64 :=
  stco_upgrade_ledger (.big 4294967312) upgradeExample 2 [] rfl rfl (by decide) (by decide)
    (by decide)

/-- C5, a concrete instance: an `ftyp` box of 8 bytes, a payload of 2 bytes,
a filler of 1 byte. -/
theorem output_layout_witness :
    ∃ tail, (hideFileInVideo (ftypBox ++ [0, 0, 0, 16, 97, 98, 99, 100, 0, 0, 0, 0, 0, 0, 0, 0])
        [9, 9] [7] [3]).file =
      (ftypBox ++ [0, 0, 0, 16, 97, 98, 99, 100, 0, 0, 0, 0, 0, 0, 0, 0]).take
          (readUInt32BE (ftypBox ++ [0, 0, 0, 16, 97, 98, 99, 100, 0, 0, 0, 0, 0, 0, 0, 0]) 0) ++
        (u32be 11 ++ freeTag) ++ [9, 9] ++ [7] ++ tail :=
  output_layout (ftypBox ++ [0, 0, 0, 16, 97, 98, 99, 100, 0, 0, 0, 0, 0, 0, 0, 0]) [9, 9] [7] [3]
    (u32be 11 ++ freeTag) (.num 11) (by decide) (by decide) rfl

/-- When the free-header builder throws, the run ends before anything is written. -/
theorem hideFileInVideo_header_error (video attach confusionData : List Byte)
    (cuts : List Nat) (e : JSError)
    (hty : subarray (video.take 8 ++ List.replicate (8 - video.length) 0) 4 8 = ftypTag)
    (hrd : readUInt32BE (video.take 8 ++ List.replicate (8 - video.length) 0) 0 ≠ 0)
    (hb : buildFreeHeader (attach.length + confusionData.length) = .error e) :
    hideFileInVideo video attach confusionData cuts = { error := some e, file := [] } := by
  unfold hideFileInVideo
  simp only [hty, ne_eq, not_true_eq_false, if_false, hrd, hb]

/-- C5 as stated fails on inputs the script refuses before it writes
anything: an `ftyp` size field of 0 (`createReadStream` rejects `end: -1`),
and a payload of `2^53 - 1` bytes (the explicit "too big" guard).  In both
cases the tag at bytes 4..8 is `ftyp` and the output holds no byte at all. -/
theorem output_layout_refused :
    hideFileInVideo [0, 0, 0, 0, 102, 116, 121, 112] [9, 9] [7] [] =
        { error := some .rangeError, file := [] } ∧
      hideFileInVideo ftypBox (List.replicate 9007199254740991 0) [] [] =
        { error := some .tooBig, file := [] } := by
  constructor
  · decide
  · apply hideFileInVideo_header_error
    · decide
    · decide
    · rw [List.length_replicate]
      rfl

/-! ## Proofs: a run below 2^32 stays in plain mode -/

@[simp] theorem flush_totalSize (k : Int) (w : Bool) (s : State) :
    (flush k w s).totalSize = s.totalSize := rfl

@[simp] theorem flush_writeType (k : Int) (w : Bool) (s : State) :
    (flush k w s).writeChunkOffsetType = s.writeChunkOffsetType := rfl

theorem finishTable_plain (s : State) (h : PlainMode s) : PlainMode (finishTable s) := by
  unfold finishTable
  split
  · exact h
  · exact h

theorem countDown_plain (s : State) (h : PlainMode s) : PlainMode (countDown s) := by
  unfold countDown
  simp only
  split
  · exact finishTable_plain _ h
  · exact h

theorem step_plain (f : JSInt) (s : State) (h : PlainMode s) : PlainMode (step f s) := by
  have hnot : ¬ (s.totalSize ≥ 4294967296) := by have := h.1; omega
  unfold step
  split
  · unfold stepHeader
    simp only [hnot, if_false]
    split
    · split
      · exact h
      · split
        · exact h
        · split <;> exact h
    · split
      · exact h
      · split <;> exact h
  · unfold stepExtendedHeader
    split
    · exact h
    · split <;> exact h
  · exact h
  · unfold stepEntryCount
    simp only
    split
    · split <;> exact h
    · exact finishTable_plain _ h
  · unfold stepUint32
    simp only [h.2]
    split
    · exact h
    · split
      · exact h
      · exact countDown_plain _ ⟨h.1, rfl⟩
  · unfold stepUint64
    simp only
    split
    · exact h
    · exact countDown_plain _ h
  · exact h
  · exact h

theorem drain_plain (f : JSInt) (s : State) (h : PlainMode s) : PlainMode (drain f s) := by
  have key : ∀ n (s : State), PlainMode s → PlainMode (drainFuel f n s) := by
    intro n
    induction n with
    | zero => intro s h; exact h
    | succ n ih =>
      intro s h
      simp only [drainFuel]
      split
      · exact ih _ (step_plain f s h)
      · exact h
  exact key _ s h

theorem push_plain (c : List Byte) (s : State) (h : PlainMode s) : PlainMode (push c s) := by
  unfold push
  simp only
  split <;> exact h

/-- A run that starts with a total size below 2^32 stays in plain mode. -/
theorem feed_plain (f : JSInt) (s : State) (cs : List (List Byte)) (h : PlainMode s) :
    PlainMode (feed f s cs) := by
  induction cs generalizing s with
  | nil => exact h
  | cons c cs ih =>
    simp only [feed, List.foldl_cons]
    apply ih
    unfold feedChunk
    split
    · exact h
    · exact drain_plain f _ (push_plain c s h)

theorem initState_plain (totalSize processedBytes : Int) (out : List Byte)
    (h : totalSize < 4294967296) : PlainMode (initState totalSize processedBytes out) :=
  ⟨h, rfl⟩

/-! ## The free header outside the gap, and an upgrade that works -/

/-- Outside the 8-value gap below 2^32 the free header is built as intended:
the standard header for a content size below `2^32 - 8`, the extended one from
2^32 up to the safe-integer limit; `freeHeaderSize` is the declared size. -/
theorem buildFreeHeader_ok (L : Nat) :
    (L < 4294967288 →
      buildFreeHeader L = .ok (u32be (8 + L) ++ freeTag, .num ((8 + L : Nat) : Int))) ∧
    (4294967296 ≤ L → L < 9007199254740991 →
      buildFreeHeader L =
        .ok (u32be 1 ++ freeTag ++ u64be (16 + L), .big ((16 + L : Nat) : Int))) := by
  constructor
  · intro h
    have h1 : L < 4294967296 := by omega
    have h2 : ¬ (8 + L ≥ 4294967296) := by omega
    simp [buildFreeHeader, h1, h2]
  · intro h1 h2
    have h3 : ¬ (L < 4294967296) := by omega
    have h4 : ¬ (L ≥ 9007199254740991) := by omega
    simp [buildFreeHeader, h3, h4]

/-- The free header is built exactly for the content sizes outside the gap
and below the safe-integer limit. -/
theorem buildFreeHeader_ok_iff (L : Nat) :
    (∃ r, buildFreeHeader L = .ok r) ↔
      (L < 4294967288 ∨ (4294967296 ≤ L ∧ L < 9007199254740991)) := by
  constructor
  · rintro ⟨r, hr⟩
    unfold buildFreeHeader at hr
    by_contra hcon
    split at hr
    · split at hr
      · cases hr
      · omega
    · split at hr
      · cases hr
      · omega
  · rintro (h | ⟨h1, h2⟩)
    · exact ⟨_, (buildFreeHeader_ok L).1 h⟩
    · exact ⟨_, (buildFreeHeader_ok L).2 h1 h2⟩

theorem header_stco_upgrade (f : JSInt) (s : State) (N : Nat)
    (he : s.error = none) (ho : s.owedLength = 0) (hs : s.status = .HEADER)
    (htot : s.totalSize ≥ 4294967296) (hN : 16 + 8 * N < 4294967296) :
    Consumes f s (u32be (16 + 4 * N) ++ stcoTag) (afterUpgrade N s) := by
  apply consumes_step f s _ _ he ho
  · simp [hs, statusEnum, stcoTag]
  · intro b
    rw [step_stco_upgrade f { s with buffer := u32be (16 + 4 * N) ++ stcoTag ++ b } N b hs rfl
      htot hN]
    rfl

theorem uint32_wide_phase (L : Nat) (t : State) (e : Nat)
    (he : t.error = none) (ho : t.owedLength = 0) (hs : t.status = .UINT32_CHUNK_OFFSET)
    (hw : t.writeChunkOffsetType = .co64) (he32 : e < 4294967296)
    (hfit : e + L < 18446744073709551616) :
    Consumes (.big L) t (u32be e) (countDown (widened (e + L) t)) := by
  apply consumes_step _ t _ _ he ho
  · simp [hs, statusEnum]
  · intro b
    have hrd : readUInt32BE (u32be e ++ b) 0 = e := by
      rw [readUInt32BE_append (u32be e) _ rfl, beNat_u32be _ he32]
    have hr : ¬ ((e : Int) + (L : Int) < 0 ∨ (e : Int) + (L : Int) ≥ 18446744073709551616) := by
      omega
    simp only [step, hs, stepUint32, hw, hrd, JSInt.toInt, hr, if_false]
    have hcast : ((e : Int) + (L : Int)).toNat = e + L := by omega
    rw [hcast, flush_front_silent (u32be e) b _ 4 (by simp) rfl]
    simp only [widened, countDown, finishTable]
    split
    · cases popAtom t.atoms <;> simp [raise, hs, hw]
    · simp [hs, hw]

theorem stco_entries_wide (L : Nat) (entries : List Nat) :
    ∀ t : State, entries ≠ [] → t.error = none → t.owedLength = 0 →
      t.status = .UINT32_CHUNK_OFFSET → t.writeChunkOffsetType = .co64 →
      t.remainingChunkOffsets = entries.length →
      (∀ e ∈ entries, e < 4294967296 ∧ e + L < 18446744073709551616) →
      ∃ u, Consumes (.big L) t (entries.flatMap u32be) u ∧
        u.out = t.out ++ entries.flatMap (fun e => u64be (e + L)) := by
  induction entries with
  | nil => intro t h; exact absurd rfl h
  | cons e es ih =>
    intro t _ he ho hs hw hrem hfit
    have hph := uint32_wide_phase L t e he ho hs hw (hfit e (by simp)).1 (hfit e (by simp)).2
    by_cases hes : es = []
    · subst hes
      refine ⟨countDown (widened (e + L) t), ?_, ?_⟩
      · simpa using hph
      · simp [widened]
    · have hlen : es.length ≠ 0 := by simpa using hes
      have hne : (widened (e + L) t).remainingChunkOffsets - 1 ≠ 0 := by
        simp only [widened, hrem, List.length_cons]
        push_cast
        omega
      rw [countDown_of_ne _ hne] at hph
      obtain ⟨u, hu, hout⟩ := ih { widened (e + L) t with
          remainingChunkOffsets := (widened (e + L) t).remainingChunkOffsets - 1 }
        hes (by simp [widened, he]) (by simp [widened])
        (by simp [widened, hs]) (by simp [widened, hw])
        (by simp [widened, hrem]) (fun x hx => hfit x (by simp [hx]))
      refine ⟨u, ?_, ?_⟩
      · simpa using consumes_trans hph hu
      · rw [hout]; simp [widened]

/-- With the 16-byte free header (`freeHeaderSize` a bigint) and a total size
of 2^32 or more, an `stco` box met in the `HEADER` state is written as the
`co64` box with the same version/flags and count and every entry widened to
64 bits and increased by `insertedLength`. -/
theorem stco_table_upgraded (L : Nat) (s : State) (vf : List Byte) (entries : List Nat)
    (cs : List (List Byte)) (rest : List Byte)
    (he : s.error = none) (ho : s.owedLength = 0) (hs : s.status = .HEADER)
    (htot : s.totalSize ≥ 4294967296)
    (hvf : vf.length = 4) (hsize : 16 + 8 * entries.length < 4294967296)
    (hfit : ∀ e ∈ entries, e < 4294967296 ∧ e + L < 18446744073709551616)
    (hstream : s.buffer ++ cs.flatten = stcoBox vf entries ++ rest) :
    ∃ tail, (feed (.big L) (drain (.big L) s) cs).out =
      s.out ++ co64Box vf (entries.map (· + L)) ++ tail := by
  have h1 := header_stco_upgrade (.big L) s entries.length he ho hs htot hsize
  have h2 := addition_phase (.big L) (afterUpgrade entries.length s) vf
    (by simp [afterUpgrade, he]) (by simp [afterUpgrade]) (by simp [afterUpgrade]) hvf
  have h12 := consumes_trans h1 h2
  have key : ∃ u, Consumes (.big L) s (stcoBox vf entries) u ∧
      u.out = s.out ++ co64Box vf (entries.map (· + L)) := by
    by_cases hes : entries = []
    · subst hes
      have h3 := entryCount_phase_zero (.big L)
        { copied vf (afterUpgrade ([] : List Nat).length s) with status := .ENTRY_COUNT }
        (by simp [copied, afterUpgrade, he]) (by simp [copied]) (by simp)
      have h123 := consumes_trans h12 h3
      refine ⟨_, by simpa [stcoBox] using h123, ?_⟩
      simp [copied, afterUpgrade, co64Box]
    · have hpos : 0 < entries.length := List.length_pos.2 hes
      have h3 := entryCount_phase (.big L)
        { copied vf (afterUpgrade entries.length s) with status := .ENTRY_COUNT } entries.length
        { size := .num ((16 + 4 * entries.length : Nat) : Int), type := stcoTag, readSize := 8,
          position := s.processedBytes } s.atoms
        (by simp [copied, afterUpgrade, he]) (by simp [copied]) (by simp)
        (by simp [copied, afterUpgrade]) (by omega) hpos
      simp only [if_true] at h3
      obtain ⟨u, hu, hout⟩ := stco_entries_wide L entries
        { copied (u32be entries.length)
            { copied vf (afterUpgrade entries.length s) with status := .ENTRY_COUNT } with
          remainingChunkOffsets := entries.length
          status := .UINT32_CHUNK_OFFSET }
        hes (by simp [copied, afterUpgrade, he]) (by simp [copied]) (by simp)
        (by simp [copied, afterUpgrade]) (by simp) hfit
      refine ⟨u, ?_, ?_⟩
      · have := consumes_trans (consumes_trans h12 h3) hu
        simpa [stcoBox] using this
      · rw [hout]
        simp [copied, afterUpgrade, co64Box, List.flatMap_map]
  obtain ⟨u, hu, hout⟩ := key
  have hpre := consumes_out hu cs rest hstream
  rw [hout] at hpre
  obtain ⟨tail, ht⟩ := hpre
  exact ⟨tail, ht.symm⟩

/-! ## Claim C18: the tag character check -/

/-- C18: `isValidAtomType` answers `true` exactly when every byte is a space
(0x20), a digit (0x30..0x39), an upper-case letter (0x41..0x5A) or a
lower-case letter (0x61..0x7A); in particular it answers `true` on the empty
buffer, and `false` as soon as one byte lies outside these ranges. -/
theorem isValidAtomType_iff (buffer : List Byte) :
    (isValidAtomType buffer = true ↔
      ∀ x ∈ buffer, x = 32 ∨ (48 ≤ x ∧ x ≤ 57) ∨ (65 ≤ x ∧ x ≤ 90) ∨ (97 ≤ x ∧ x ≤ 122)) ∧
    isValidAtomType [] = true ∧
    ((∃ x ∈ buffer, ¬ (x = 32 ∨ (48 ≤ x ∧ x ≤ 57) ∨ (65 ≤ x ∧ x ≤ 90) ∨ (97 ≤ x ∧ x ≤ 122))) →
      isValidAtomType buffer = false) := by
  have key : isValidAtomType buffer = true ↔
      ∀ x ∈ buffer, x = 32 ∨ (48 ≤ x ∧ x ≤ 57) ∨ (65 ≤ x ∧ x ≤ 90) ∨ (97 ≤ x ∧ x ≤ 122) := by
    unfold isValidAtomType
    rw [List.all_eq_true]
    refine forall_congr' (fun x => forall_congr' (fun _ => ?_))
    by_cases h32 : x = 32
    · simp [h32]
    · simp [h32]
      tauto
  refine ⟨key, rfl, ?_⟩
  rintro ⟨x, hx, hbad⟩
  by_contra hne
  have htrue : isValidAtomType buffer = true := by
    cases h : isValidAtomType buffer
    · exact absurd h hne
    · rfl
  exact hbad (key.1 htrue x hx)

/-! ## Claim C15: an owed flush completed by later pushes -/

/-- The effect of `flush(k)` for a length that is not negative, field by field. -/
theorem flush_nat (k : Nat) (t : State) :
    flush (k : Int) true t = { t with
      owedLength := ((k - t.buffer.length : Nat) : Int)
      out := t.out ++ t.buffer.take k
      buffer := t.buffer.drop k
      offset := t.offset + ((min k t.buffer.length : Nat) : Int)
      processedBytes := t.processedBytes + ((min k t.buffer.length : Nat) : Int) } := by
  unfold flush
  by_cases h : (k : Int) > (t.buffer.length : Int)
  · have hlt : t.buffer.length < k := by omega
    simp only [h, if_true]
    rw [subarray_zero, subarrayFrom_natCast]
    have h1 : min k t.buffer.length = t.buffer.length := by omega
    have h2 : List.take k t.buffer = t.buffer := List.take_of_length_le (by omega)
    have h3 : List.drop k t.buffer = [] := List.drop_eq_nil_of_le (by omega)
    have h4 : ((k - t.buffer.length : Nat) : Int) = (k : Int) - (t.buffer.length : Int) := by
      omega
    simp [h1, h2, h3, h4]
  · have hle : k ≤ t.buffer.length := by omega
    simp only [h, if_false, if_true]
    rw [subarray_zero, subarrayFrom_natCast]
    have h1 : min k t.buffer.length = k := by omega
    have h4 : k - t.buffer.length = 0 := by omega
    simp [h1, h4]

theorem push_eq_flush (c : List Byte) (t : State) (m : Nat) (h : t.owedLength = m) :
    push c t = flush (m : Int) true { t with buffer := t.buffer ++ c } := by
  unfold push
  simp only [h]
  by_cases hm : 0 < m
  · have : (m : Int) > 0 := by omega
    simp [this]
  · have hm0 : m = 0 := by omega
    subst hm0
    rw [flush_nat]
    simp [h]

theorem flush_then_more (m : Nat) (t : State) (D : List Byte) :
    flush ((m - t.buffer.length : Nat) : Int) true
        { flush (m : Int) true t with buffer := (flush (m : Int) true t).buffer ++ D } =
      flush (m : Int) true { t with buffer := t.buffer ++ D } := by
  simp only [flush_nat]
  by_cases h : m ≤ t.buffer.length
  · have h0 : m - t.buffer.length = 0 := by omega
    simp [h0, List.take_append_of_le_length h, List.drop_append_of_le_length h]
    omega
  · have hlt : t.buffer.length < m := by omega
    have h3 : List.drop m t.buffer = [] := List.drop_eq_nil_of_le (by omega)
    have h2 : List.take m t.buffer = t.buffer := List.take_of_length_le (by omega)
    simp [h3, h2, List.take_append_eq_append_take, List.drop_append_eq_append_drop]
    omega

theorem flush_settled (m : Nat) (t : State) :
    flush ((m - t.buffer.length : Nat) : Int) true (flush (m : Int) true t) =
      flush (m : Int) true t := by
  have h := flush_then_more m t []
  simpa using h

theorem pushAll_eq (cs : List (List Byte)) :
    ∀ (t : State) (m : Nat), t.owedLength = m → flush (m : Int) true t = t →
      pushAll cs t = flush (m : Int) true { t with buffer := t.buffer ++ cs.flatten } := by
  induction cs with
  | nil =>
    intro t m _ hs
    simpa [pushAll] using hs.symm
  | cons c cs ih =>
    intro t m hm _
    have hp := push_eq_flush c t m hm
    have hstep : pushAll (c :: cs) t = pushAll cs (push c t) := rfl
    rw [hstep, hp]
    have hown : (flush (m : Int) true { t with buffer := t.buffer ++ c }).owedLength =
        ((m - (t.buffer ++ c).length : Nat) : Int) := by
      rw [flush_nat]
    rw [ih _ _ hown (flush_settled m { t with buffer := t.buffer ++ c })]
    have := flush_then_more m { t with buffer := t.buffer ++ c } cs.flatten
    simpa [List.append_assoc] using this

/-- C15: for a `PartialBuffer` that owes nothing and holds `b`, `flush(L)`
with `L > |b|` followed by the pushes of `c1 .. cn` gives the same state as
pushing all chunks first and calling `flush(L)` once: the output has grown by
exactly the first `L` bytes of `b ++ c1 ++ .. ++ cn` (by all of them if fewer
have arrived), the visible buffer is what comes after these `L` bytes, and it
is empty as long as bytes are owed. -/
theorem owed_flush_refines (s : State) (L : Nat) (cs : List (List Byte))
    (ho : s.owedLength = 0) (hL : s.buffer.length < L) :
    pushAll cs (flush (L : Int) true s) = flush (L : Int) true (pushAll cs s) ∧
      (pushAll cs (flush (L : Int) true s)).out =
        s.out ++ (s.buffer ++ cs.flatten).take L ∧
      (pushAll cs (flush (L : Int) true s)).buffer = (s.buffer ++ cs.flatten).drop L ∧
      (pushAll cs (flush (L : Int) true s)).owedLength =
        ((L - (s.buffer ++ cs.flatten).length : Nat) : Int) ∧
      (0 < (pushAll cs (flush (L : Int) true s)).owedLength →
        (pushAll cs (flush (L : Int) true s)).buffer = []) := by
  have h0 : flush ((0 : Nat) : Int) true s = s := by
    rw [flush_nat]
    cases s
    simp_all
  have hall : pushAll cs s = { s with buffer := s.buffer ++ cs.flatten } := by
    rw [pushAll_eq cs s 0 (by simpa using ho) h0, flush_nat]
    cases s
    simp_all
  have hown : (flush (L : Int) true s).owedLength = ((L - s.buffer.length : Nat) : Int) := by
    rw [flush_nat]
  have hseq : pushAll cs (flush (L : Int) true s) =
      flush (L : Int) true { s with buffer := s.buffer ++ cs.flatten } := by
    rw [pushAll_eq cs _ _ hown (flush_settled L s)]
    exact flush_then_more L s cs.flatten
  refine ⟨by rw [hseq, hall], ?_, ?_, ?_, ?_⟩
  · rw [hseq, flush_nat]
  · rw [hseq, flush_nat]
  · rw [hseq, flush_nat]
  · rw [hseq, flush_nat]
    intro hpos
    simp only [] at hpos ⊢
    exact List.drop_eq_nil_of_le (by omega)

/-- C15, a concrete instance: two bytes are buffered, `flush(5)` is called,
then chunks of 1, 0 and 4 bytes arrive. -/
theorem owed_flush_refines_witness :
    pushAll [[3], [], [4, 5, 6, 7]] (flush ((5 : Nat) : Int) true
        { initState 1000 0 [] with buffer := [1, 2] }) =
      flush ((5 : Nat) : Int) true (pushAll [[3], [], [4, 5, 6, 7]]
        { initState 1000 0 [] with buffer := [1, 2] }) ∧
    (pushAll [[3], [], [4, 5, 6, 7]] (flush ((5 : Nat) : Int) true
        { initState 1000 0 [] with buffer := [1, 2] })).out = [1, 2, 3, 4, 5] ∧
    (pushAll [[3], [], [4, 5, 6, 7]] (flush ((5 : Nat) : Int) true
        { initState 1000 0 [] with buffer := [1, 2] })).buffer = [6, 7] :=
  have h := owed_flush_refines { initState 1000 0 [] with buffer := [1, 2] } 5
    [[3], [], [4, 5, 6, 7]] rfl (by decide)
  ⟨h.1, h.2.1, h.2.2.1⟩

/-! ## Claim C11: a declared size of 0 -/

/-- C11 (as amended): when the `HEADER` iteration reads a header with a valid
type tag and a declared size of 0, no error is raised (the one exception, left
out here, is an `stco` tag while the total size is 2^32 or more, where the
rewrite of the size field throws): the box is pushed with declared size 0,
its 8 header bytes are copied to the output and the run goes on with the
bytes that follow. -/
theorem size_zero_header_step (f : JSInt) (s : State) (tag b : List Byte)
    (hs : s.status = .HEADER) (hbuf : s.buffer = u32be 0 ++ tag ++ b)
    (htag : tag.length = 4) (hvalid : isValidAtomType tag = true)
    (hnot : ¬ (tag = stcoTag ∧ s.totalSize ≥ 4294967296)) :
    (step f s).error = s.error ∧
      (step f s).out = s.out ++ (u32be 0 ++ tag) ∧
      (step f s).atoms =
        { size := .num 0, type := tag, readSize := 8, position := s.processedBytes } :: s.atoms ∧
      (step f s).buffer = b ∧
      (step f s).status = (if tag = stcoTag ∨ tag = co64Tag then .ADDITION else .HEADER) := by
  have hty : subarray (u32be 0 ++ tag ++ b) 4 8 = tag := subarray_type _ _ _ rfl htag
  have hrd : readUInt32BE (u32be 0 ++ tag ++ b) 0 = 0 := by
    rw [List.append_assoc, readUInt32BE_append (u32be 0) _ rfl, beNat_u32be _ (by omega)]
  have hfl : ∀ t : State, t.buffer = u32be 0 ++ tag ++ b →
      flush 8 true t = { t with
        owedLength := 0
        out := t.out ++ (u32be 0 ++ tag)
        buffer := b
        offset := t.offset + 8
        processedBytes := t.processedBytes + 8 } := fun t ht =>
    flush_front (u32be 0 ++ tag) b t 8 (by simp [htag]) ht
  simp only [step, hs, stepHeader, hbuf, hty, hrd, hvalid, if_true]
  have h1 : ¬ (((0 : Nat) : Int) = 1) := by omega
  have h8 : ¬ (((0 : Nat) : Int) = 8) := by omega
  simp only [h1, h8, if_false]
  by_cases hst : tag = stcoTag
  · subst hst
    have htot : ¬ (s.totalSize ≥ 4294967296) := fun h => hnot ⟨rfl, h⟩
    simp only [if_true, htot, if_false]
    rw [hfl _ rfl]
    simp [hs]
  · by_cases hco : tag = co64Tag
    · subst hco
      have hne : ¬ (co64Tag = stcoTag) := by decide
      simp only [hne, if_false, if_true]
      rw [hfl _ rfl]
      simp [hs]
    · simp only [hst, hco, if_false]
      rw [hfl _ rfl]
      simp [hs, hst, hco]

/-- C11, a concrete instance: the header of a box `mdat` of declared size 0. -/
theorem size_zero_header_step_witness :
    (step (.num 11) { initState 1000 19 [] with
        buffer := [0, 0, 0, 0, 109, 100, 97, 116, 1, 2] }).error = none ∧
      (step (.num 11) { initState 1000 19 [] with
        buffer := [0, 0, 0, 0, 109, 100, 97, 116, 1, 2] }).out =
        [] ++ (u32be 0 ++ [109, 100, 97, 116]) ∧
      (step (.num 11) { initState 1000 19 [] with
        buffer := [0, 0, 0, 0, 109, 100, 97, 116, 1, 2] }).atoms =
        [{ size := .num 0, type := [109, 100, 97, 116], readSize := 8, position := 19 }] :=
  have h := size_zero_header_step (.num 11)
    { initState 1000 19 [] with buffer := [0, 0, 0, 0, 109, 100, 97, 116, 1, 2] }
    [109, 100, 97, 116] [1, 2] rfl rfl rfl (by decide) (by decide)
  ⟨h.1, h.2.1, h.2.2.1⟩

/-! ## Claim C12: a box skipped as opaque content -/

theorem canStep_nil (t : State) (h : t.buffer = []) : canStep t = false := by
  unfold canStep
  cases hs : t.status <;> simp [statusEnum, h]

theorem run_push (f : JSInt) (t : State) (c : List Byte) (cs : List (List Byte))
    (h : canStep t = false) (he : t.error = none) :
    run f t (c :: cs) = run f (push c t) cs := by
  unfold run
  rw [drain_of_not_canStep f t h]
  simp [feed, feedChunk, he]

theorem split_of_le {b0 pre x y : List Byte} (h : b0 ++ x = pre ++ y)
    (hlen : pre.length ≤ b0.length) : ∃ b, b0 = pre ++ b ∧ y = b ++ x := by
  rcases List.append_eq_append_iff.1 h with ⟨a, ha, hx⟩ | ⟨a, ha, hy⟩
  · have : a = [] := by
      apply List.eq_nil_of_length_eq_zero
      rw [ha, List.length_append] at hlen
      omega
    subst this
    exact ⟨[], by simp [ha], by simpa using hx.symm⟩
  · exact ⟨a, ha, hy⟩

theorem split_of_lt {b0 pre x y : List Byte} (h : b0 ++ x = pre ++ y)
    (hlen : b0.length < pre.length) : ∃ p, pre = b0 ++ p ∧ x = p ++ y ∧ 0 < p.length := by
  rcases List.append_eq_append_iff.1 h with ⟨a, ha, hx⟩ | ⟨a, ha, hy⟩
  · refine ⟨a, ha, hx, ?_⟩
    rw [ha, List.length_append] at hlen
    omega
  · rw [ha, List.length_append] at hlen
    omega

/-- While bytes are owed, the chunks that arrive are written until the owed
length is reached; the run then goes on with what is left. -/
theorem run_owed (f : JSInt) (cs : List (List Byte)) :
    ∀ (t : State) (pre rest : List Byte), t.buffer = [] → t.owedLength = pre.length →
      0 < pre.length → t.error = none → cs.flatten = pre ++ rest →
      ∃ b cs', b ++ cs'.flatten = rest ∧
        run f t cs = run f { copied pre t with buffer := b } cs' := by
  induction cs with
  | nil =>
    intro t pre rest _ _ hpos _ h
    have : pre = [] := by
      have := congrArg List.length h
      simp at this
      exact List.eq_nil_of_length_eq_zero (by omega)
    subst this
    simp at hpos
  | cons c cs ih =>
    intro t pre rest hb ho hpos he h
    rw [run_push f t c cs (canStep_nil t hb) he, push_eq_flush c t pre.length ho, hb]
    simp only [List.nil_append]
    rw [List.flatten_cons] at h
    by_cases hlen : pre.length ≤ c.length
    · obtain ⟨b, rfl, hrest⟩ := split_of_le h hlen
      refine ⟨b, cs, hrest.symm, ?_⟩
      rw [flush_front pre b _ pre.length rfl rfl]
      simp [copied]
    · obtain ⟨p, rfl, hx, hp⟩ := split_of_lt h (by omega)
      rw [flush_nat]
      have h1 : List.take (c ++ p).length c = c := List.take_of_length_le (by simp)
      have h2 : List.drop (c ++ p).length c = [] := List.drop_eq_nil_of_le (by simp)
      have h3 : min (c ++ p).length c.length = c.length := by simp
      have h4 : (c ++ p).length - c.length = p.length := by simp
      simp only [h1, h2, h3, h4]
      obtain ⟨b, cs', hb', hr⟩ := ih
        { t with
          owedLength := (p.length : Int)
          out := t.out ++ c
          buffer := []
          offset := t.offset + (c.length : Int)
          processedBytes := t.processedBytes + (c.length : Int) } p rest rfl rfl hp he hx
      refine ⟨b, cs', hb', ?_⟩
      rw [hr]
      simp [copied, List.append_assoc, add_assoc]

/-- A call `flush(n)` on whatever is buffered, followed by the rest of the
run: the next `n` bytes of the stream are written, then the run goes on. -/
theorem run_flush (f : JSInt) (v : State) (pre b0 rest : List Byte) (cs : List (List Byte))
    (he : v.error = none) (h : b0 ++ cs.flatten = pre ++ rest) :
    ∃ b cs', b ++ cs'.flatten = rest ∧
      run f (flush (pre.length : Int) true { v with buffer := b0 }) cs =
        run f { copied pre v with buffer := b } cs' := by
  by_cases hlen : pre.length ≤ b0.length
  · obtain ⟨b, rfl, hrest⟩ := split_of_le h hlen
    refine ⟨b, cs, hrest.symm, ?_⟩
    rw [flush_front pre b _ pre.length rfl rfl]
    simp [copied]
  · obtain ⟨p, rfl, hx, hp⟩ := split_of_lt h (by omega)
    rw [flush_nat]
    have h1 : List.take (b0 ++ p).length b0 = b0 := List.take_of_length_le (by simp)
    have h2 : List.drop (b0 ++ p).length b0 = [] := List.drop_eq_nil_of_le (by simp)
    have h3 : min (b0 ++ p).length b0.length = b0.length := by simp
    have h4 : (b0 ++ p).length - b0.length = p.length := by simp
    simp only [h1, h2, h3, h4]
    obtain ⟨b, cs', hb', hr⟩ := run_owed f cs
      { v with
        owedLength := (p.length : Int)
        out := v.out ++ b0
        buffer := []
        offset := v.offset + (b0.length : Int)
        processedBytes := v.processedBytes + (b0.length : Int) } p rest rfl rfl hp he hx
    refine ⟨b, cs', hb', ?_⟩
    rw [hr]
    simp [copied, List.append_assoc, add_assoc]

/-- A step that waits for the bytes `c8` and then calls `flush` for
`c8 ++ more`: once all these bytes have arrived they are written and the run
goes on after them. -/
theorem consumes_skip (f : JSInt) (s v : State) (c8 more : List Byte)
    (he : s.error = none) (ho : s.owedLength = 0)
    (hst : statusEnum s.status = some c8.length) (hv : v.error = none)
    (hstep : ∀ b, step f { s with buffer := c8 ++ b } =
      flush ((c8 ++ more).length : Int) true { v with buffer := c8 ++ b }) :
    Consumes f s (c8 ++ more) (copied (c8 ++ more) v) := by
  intro b0 cs rest h
  have enough : ∀ (b0 : List Byte) (cs : List (List Byte)),
      b0 ++ cs.flatten = c8 ++ more ++ rest → c8.length ≤ b0.length →
      ∃ b cs', b ++ cs'.flatten = rest ∧
        run f { s with buffer := b0 } cs = run f { copied (c8 ++ more) v with buffer := b } cs' := by
    intro b0 cs h hlen
    have h' : b0 ++ cs.flatten = c8 ++ (more ++ rest) := by
      rw [h, List.append_assoc]
    obtain ⟨b, rfl, -⟩ := split_of_le h' hlen
    rw [run_step f _ cs (by simp [canStep, he, hst]), hstep]
    exact run_flush f v (c8 ++ more) (c8 ++ b) rest cs hv h
  induction cs generalizing b0 with
  | nil =>
    apply enough b0 [] h
    have := congrArg List.length h
    simp at this
    omega
  | cons c cs ih =>
    by_cases hlen : c8.length ≤ b0.length
    · exact enough b0 (c :: cs) h hlen
    · have hc : canStep { s with buffer := b0 } = false := by
        simp [canStep, he, hst]; omega
      rw [run_cons f _ c cs hc he ho]
      exact ih (b0 ++ c) (by simpa using h)

theorem header_plain (f : JSInt) (s : State) (size : Nat) (tag : List Byte)
    (he : s.error = none) (ho : s.owedLength = 0) (hs : s.status = .HEADER)
    (htag : tag.length = 4) (hvalid : isValidAtomType tag = true)
    (hst : tag ≠ stcoTag) (hco : tag ≠ co64Tag)
    (hsz : size < 4294967296) (h1 : size ≠ 1) (h8 : size ≠ 8) :
    Consumes f s (u32be size ++ tag) (afterPlainHeader tag size s) := by
  apply consumes_step f s _ _ he ho
  · simp [hs, statusEnum, htag]
  · intro b
    have hty : subarray (u32be size ++ tag ++ b) 4 8 = tag := subarray_type _ _ _ rfl htag
    have hrd : readUInt32BE (u32be size ++ tag ++ b) 0 = size := by
      rw [List.append_assoc, readUInt32BE_append (u32be size) _ rfl, beNat_u32be _ hsz]
    simp only [step, hs, stepHeader, hty, hrd, hvalid, if_true, hst, hco, if_false]
    have h1' : ¬ ((size : Int) = 1) := by omega
    have h8' : ¬ ((size : Int) = 8) := by omega
    simp only [h1', h8', if_false]
    rw [flush_front (u32be size ++ tag) b _ 8 (by simp [htag]) rfl]
    simp [afterPlainHeader, afterHeader, hs]

/-- The content of a box just pushed, when its bytes 4..8 are no tag: the box
is removed and its content is copied through. -/
theorem content_skipped (f : JSInt) (t : State) (S : Nat) (a : Atom) (below : List Atom)
    (p q more : List Byte)
    (he : t.error = none) (ho : t.owedLength = 0) (hs : t.status = .HEADER)
    (hat : t.atoms = a :: below) (hsize : a.size = .num S)
    (hp : p.length = 4) (hq : q.length = 4) (hinv : isValidAtomType q = false)
    (hS : S = 8 + (p ++ q ++ more).length) (hS32 : S < 4294967296) :
    Consumes f t (p ++ q ++ more)
      (copied (p ++ q ++ more) { t with atoms := popLoop S below }) := by
  have := consumes_skip f t { t with atoms := popLoop S below } (p ++ q) more he ho
    (by simp [hs, statusEnum, hp, hq]) (by simpa using he) (by
      intro b
      have hty : subarray (p ++ q ++ b) 4 8 = q := subarray_type _ _ _ hp hq
      have hnot : ¬ ((S : Int) ≥ 4294967296) := by omega
      have hk : (S : Int) - 8 = ((p ++ q ++ more).length : Int) := by
        rw [hS]; push_cast; omega
      simp only [step, hs, stepHeader, hty, hinv, hat, popAtom, hsize, JSInt.toInt, hnot,
        if_false, hk]
      simp)
  simpa using this

/-- C12 (as amended): a box with a standard header of declared size `S`, a
valid tag other than `stco`/`co64`, and a content of `S - 8 ≥ 8` bytes whose
bytes 4..8 do not pass the tag character check (whatever the bytes at the
other offsets are) is skipped as a whole: no nested box is pushed, exactly
its `S` bytes are written unchanged, and the run goes on at the end of the
box in the `HEADER` state, the stack being the one before the box with `S`
added to the consumed count of the parent. -/
theorem opaque_box_skipped (f : JSInt) (s : State) (S : Nat) (tag content : List Byte)
    (cs : List (List Byte)) (rest : List Byte)
    (he : s.error = none) (ho : s.owedLength = 0) (hs : s.status = .HEADER)
    (htag : tag.length = 4) (hvalid : isValidAtomType tag = true)
    (hst : tag ≠ stcoTag) (hco : tag ≠ co64Tag)
    (hS : S = 8 + content.length) (hlen : 8 ≤ content.length) (hS32 : S < 4294967296)
    (hinv : isValidAtomType ((content.drop 4).take 4) = false)
    (hstream : s.buffer ++ cs.flatten = u32be S ++ tag ++ content ++ rest) :
    ∃ b cs', b ++ cs'.flatten = rest ∧
      feed f (drain f s) cs = feed f (drain f { s with
        buffer := b
        owedLength := 0
        out := s.out ++ (u32be S ++ tag ++ content)
        offset := s.offset + S
        processedBytes := s.processedBytes + S
        atoms := popLoop S s.atoms }) cs' := by
  have hsplit : content = content.take 4 ++ (content.drop 4).take 4 ++ content.drop 8 := by
    rw [List.append_assoc]
    conv_lhs => rw [← List.take_append_drop 4 content]
    congr 1
    conv_lhs => rw [← List.take_append_drop 4 (content.drop 4)]
    simp [List.drop_drop]
  have hp : (content.take 4).length = 4 := by simp; omega
  have hq : ((content.drop 4).take 4).length = 4 := by simp; omega
  have h1 := header_plain f s S tag he ho hs htag hvalid hst hco hS32 (by omega) (by omega)
  have h2 := content_skipped f (afterPlainHeader tag S s) S
    { size := .num S, type := tag, readSize := 8, position := s.processedBytes } s.atoms
    (content.take 4) ((content.drop 4).take 4) (content.drop 8)
    (by simp [afterPlainHeader, afterHeader, he]) (by simp [afterPlainHeader, afterHeader])
    (by simp [afterPlainHeader, hs]) (by simp [afterPlainHeader, afterHeader]) rfl hp hq hinv
    (by rw [← hsplit]; exact hS) hS32
  rw [← hsplit] at h2
  have h12 := consumes_trans h1 h2
  obtain ⟨b, cs', hb, hr⟩ := h12 s.buffer cs rest (by rw [hstream])
  refine ⟨b, cs', hb, ?_⟩
  have hr' : feed f (drain f s) cs = run f { copied content { afterPlainHeader tag S s with
      atoms := popLoop S s.atoms } with buffer := b } cs' := hr
  rw [hr']
  unfold run
  congr 2
  simp only [copied, afterPlainHeader, afterHeader, hs]
  have e1 : s.offset + 8 + (content.length : Int) = s.offset + (S : Int) := by
    rw [hS]; push_cast; omega
  have e2 : s.processedBytes + 8 + (content.length : Int) = s.processedBytes + (S : Int) := by
    rw [hS]; push_cast; omega
  simp [e1, e2, hs, List.append_assoc]

/-- C12, a concrete instance: a box `mdat` of size 20 whose content has tag
letters at its bytes 0..4 and 8..12 but not at 4..8, delivered in two chunks. -/
theorem opaque_box_skipped_witness :
    ∃ b cs', b ++ cs'.flatten = [0, 0, 0, 8, 102] ∧
      feed (.num 11) (drain (.num 11) (initState 1000 19 []))
          [[0, 0, 0, 20, 109, 100, 97, 116, 97, 98, 99],
           [100, 0, 0, 0, 0, 97, 98, 99, 100, 0, 0, 0, 8, 102]] =
        feed (.num 11) (drain (.num 11) { initState 1000 19 [] with
          buffer := b
          owedLength := 0
          out := [] ++ (u32be 20 ++ [109, 100, 97, 116] ++
            [97, 98, 99, 100, 0, 0, 0, 0, 97, 98, 99, 100])
          offset := 0 + (20 : Nat)
          processedBytes := 19 + (20 : Nat)
          atoms := popLoop (20 : Nat) [] }) cs' :=
  opaque_box_skipped (.num 11) (initState 1000 19 []) 20 [109, 100, 97, 116]
    [97, 98, 99, 100, 0, 0, 0, 0, 97, 98, 99, 100]
    [[0, 0, 0, 20, 109, 100, 97, 116, 97, 98, 99],
     [100, 0, 0, 0, 0, 97, 98, 99, 100, 0, 0, 0, 8, 102]] [0, 0, 0, 8, 102]
    rfl rfl rfl rfl (by decide) (by decide) (by decide) rfl (by decide) (by decide)
    (by decide) (by decide)

/-! ## Claims C11 to C20: failing inputs -/

set_option maxRecDepth 100000 in
/-- C13 (failing input): the box `moov` of size 44 holds a child `abcd` of
size 20 and then 16 bytes that are no header; it is followed by an `stco`
table with the entry 10 and by a box `free`.  At the invalid bytes `moov` is
removed and `44 - 8 = 36` bytes are copied, 20 more than the 16 bytes left of
`moov`: the whole table is copied as it is and its entry stays 10 although 11
bytes were inserted. -/
theorem skip_ignores_consumed_children :
    hideFileInVideo (ftypBox ++ [0, 0, 0, 44, 109, 111, 111, 118] ++
        ([0, 0, 0, 20, 97, 98, 99, 100] ++ List.replicate 12 0) ++ List.replicate 16 0 ++
        stcoBox [0, 0, 0, 0] [10] ++ [0, 0, 0, 8, 102, 114, 101, 101]) [9, 9] [7] [] =
      { error := none
        file := ftypBox ++ (u32be 11 ++ freeTag) ++ [9, 9] ++ [7] ++
          [0, 0, 0, 44, 109, 111, 111, 118] ++
          ([0, 0, 0, 20, 97, 98, 99, 100] ++ List.replicate 12 0) ++ List.replicate 16 0 ++
          stcoBox [0, 0, 0, 0] [10] ++ [0, 0, 0, 8, 102, 114, 101, 101] } := by
  decide

/-- C14 (failing input): after the `HEADER` iteration has flushed the first 8
bytes, `EXTENDED_HEADER` reads the size at buffer offset 8.  With 8 content
bytes behind the 64-bit size 24, the size put on the stack is the value of
the content bytes `01 .. 08`, not 24; with nothing behind the 64-bit size the
read is out of range although the 8 size bytes are buffered. -/
theorem extended_size_read_past_field :
    (step (.num 11) (step (.num 11) extendedExample)).atoms =
        [{ size := .big 72623859790382856, type := [109, 100, 97, 116], readSize := 16,
           position := 19 }] ∧
      (step (.num 11) (step (.num 11)
        { extendedExample with buffer := extendedExample.buffer.take 16 })).error =
        some .rangeError := by
  decide

/-- C16 as stated fails: two bytes are buffered, `flush(4, false)` discards
them and owes two more; the next `push` completes the owed flush with
`writeFlushed` at its default `true`, so the bytes 3 and 4 are written and the
output cursor moves by 2. -/
theorem owed_discard_is_written :
    (push [3, 4, 5] (flush 4 false { initState 1000 0 [] with buffer := [1, 2] })).out = [3, 4] ∧
      (push [3, 4, 5] (flush 4 false
        { initState 1000 0 [] with buffer := [1, 2] })).processedBytes = 2 := by
  decide

/-- C17 (failing input): `moov` of size 16 is open with 8 bytes consumed and a
header-only box of size 8 comes next.  The box is pushed and removed at once
with `atoms.pop()`: the consumed count of `moov` stays 8, and `moov`, whose 16
bytes are now all read, stays on the stack. -/
theorem empty_child_not_counted :
    (step (.num 11) emptyChildExample).atoms =
      [{ size := .num 16, type := [109, 111, 111, 118], readSize := 8, position := 19 }] := by
  decide

set_option maxRecDepth 100000 in
/-- C19 (failing input): an `stco` box with an extended header.  After
`EXTENDED_HEADER` the status is `ADDITION_STCO`, which is no key of
`statusEnum`; the loop condition is false from then on and nothing after the
16 header bytes is ever written. -/
theorem extended_table_stalls :
    (step (.num 11) (step (.num 11) { extendedExample with
        buffer := [0, 0, 0, 1, 115, 116, 99, 111, 0, 0, 0, 0, 0, 0, 0, 28,
                   0, 0, 0, 0, 0, 0, 0, 1, 0, 0, 0, 10] })).status = .ADDITION_STCO ∧
      statusEnum .ADDITION_STCO = none ∧
      hideFileInVideo (ftypBox ++ [0, 0, 0, 1, 115, 116, 99, 111, 0, 0, 0, 0, 0, 0, 0, 28,
          0, 0, 0, 0, 0, 0, 0, 1, 0, 0, 0, 10] ++ [0, 0, 0, 8, 102, 114, 101, 101])
          [9, 9] [7] [] =
        { error := none
          file := ftypBox ++ (u32be 11 ++ freeTag) ++ [9, 9] ++ [7] ++
            [0, 0, 0, 1, 115, 116, 99, 111, 0, 0, 0, 0, 0, 0, 0, 28] } := by
  decide

set_option maxRecDepth 100000 in
/-- C20 (failing input): a box `mdat` of declared size 0 with 16 content
bytes, after 3 bytes of output.  The header moves the cursor to 11; the
content is no header, `mdat` is removed and `flush(-8)` writes 8 bytes while
the cursor falls back to 3; the box pushed next records position 3 although
19 bytes are in the output; at the end the cursor is 11 and the output holds
27 bytes. -/
theorem cursor_falls_back :
    (step (.num 11) { initState 1000 3 [9, 9, 7] with
        buffer := [0, 0, 0, 0, 109, 100, 97, 116,
                   1, 2, 3, 4, 5, 6, 7, 8, 0, 0, 0, 9, 97, 98, 99, 100] }).processedBytes = 11 ∧
      (step (.num 11) (step (.num 11) { initState 1000 3 [9, 9, 7] with
        buffer := [0, 0, 0, 0, 109, 100, 97, 116,
                   1, 2, 3, 4, 5, 6, 7, 8, 0, 0, 0, 9, 97, 98, 99, 100] })).processedBytes = 3 ∧
      (step (.num 11) (step (.num 11) { initState 1000 3 [9, 9, 7] with
        buffer := [0, 0, 0, 0, 109, 100, 97, 116,
                   1, 2, 3, 4, 5, 6, 7, 8, 0, 0, 0, 9, 97, 98, 99, 100] })).out.length = 19 ∧
      (feed (.num 11) (initState 1000 3 [9, 9, 7])
        [[0, 0, 0, 0, 109, 100, 97, 116,
          1, 2, 3, 4, 5, 6, 7, 8, 0, 0, 0, 9, 97, 98, 99, 100]]).atoms.map Atom.position = [3] ∧
      (feed (.num 11) (initState 1000 3 [9, 9, 7])
        [[0, 0, 0, 0, 109, 100, 97, 116,
          1, 2, 3, 4, 5, 6, 7, 8, 0, 0, 0, 9, 97, 98, 99, 100]]).processedBytes = 11 ∧
      (feed (.num 11) (initState 1000 3 [9, 9, 7])
        [[0, 0, 0, 0, 109, 100, 97, 116,
          1, 2, 3, 4, 5, 6, 7, 8, 0, 0, 0, 9, 97, 98, 99, 100]]).out.length = 27 := by
  decide

set_option maxRecDepth 100000 in
/-- C11 as stated fails: a box `mdat` with a valid tag and declared size 0 is
read by the state machine; the run ends without any error and has copied all
24 bytes. -/
theorem size_zero_box_accepted :
    hideFileInVideo (ftypBox ++ [0, 0, 0, 0, 109, 100, 97, 116,
        1, 2, 3, 4, 5, 6, 7, 8, 0, 0, 0, 9, 97, 98, 99, 100]) [9, 9] [7] [] =
      { error := none
        file := ftypBox ++ (u32be 11 ++ freeTag) ++ [9, 9] ++ [7] ++
          [0, 0, 0, 0, 109, 100, 97, 116,
           1, 2, 3, 4, 5, 6, 7, 8, 0, 0, 0, 9, 97, 98, 99, 100] } := by
  decide

set_option maxRecDepth 100000 in
/-- C12 as stated fails: the content of a box `mdat` of size 24 has the
letters `abcd` at its bytes 4..8.  They are taken for the tag of a nested box
of size 40, which is pushed; when it is closed 32 bytes are skipped, so the
`stco` table that follows `mdat` is copied as it is (its entry stays 10
although 11 bytes were inserted): parsing did not resume at the end of
`mdat`. -/
theorem payload_tag_bytes_parsed :
    (step (.num 11) (step (.num 11) { initState 1000 19 [] with
        buffer := [0, 0, 0, 24, 109, 100, 97, 116, 0, 0, 0, 40, 97, 98, 99, 100,
                   0, 0, 0, 0, 0, 0, 0, 0] })).atoms.map Atom.type =
        [[97, 98, 99, 100], [109, 100, 97, 116]] ∧
      hideFileInVideo (ftypBox ++ [0, 0, 0, 24, 109, 100, 97, 116, 0, 0, 0, 40, 97, 98, 99, 100,
          0, 0, 0, 0, 0, 0, 0, 0] ++ stcoBox [0, 0, 0, 0] [10] ++ [1, 1, 1, 1]) [9, 9] [7] [] =
        { error := none
          file := ftypBox ++ (u32be 11 ++ freeTag) ++ [9, 9] ++ [7] ++
            [0, 0, 0, 24, 109, 100, 97, 116, 0, 0, 0, 40, 97, 98, 99, 100,
             0, 0, 0, 0, 0, 0, 0, 0] ++ stcoBox [0, 0, 0, 0] [10] ++ [1, 1, 1, 1] } := by
  decide

/-! ## Claim C21: the 32-bit write of an entry stays in range -/

theorem drainFuel_invariant (P : State → Prop) (f : JSInt)
    (hstep : ∀ s, P s → P (step f s)) : ∀ (n : Nat) (s : State), P s → P (drainFuel f n s) := by
  intro n
  induction n with
  | zero => intro s h; exact h
  | succ n ih =>
    intro s h
    simp only [drainFuel]
    split
    · exact ih _ (hstep s h)
    · exact h

theorem feed_invariant (P : State → Prop) (f : JSInt)
    (hstep : ∀ s, P s → P (step f s)) (hpush : ∀ c s, P s → P (push c s)) :
    ∀ (cs : List (List Byte)) (s : State), P s → P (feed f s cs) := by
  intro cs
  induction cs with
  | nil => intro s h; exact h
  | cons c cs ih =>
    intro s h
    simp only [feed, List.foldl_cons]
    apply ih
    unfold feedChunk
    split
    · exact h
    · exact drainFuel_invariant P f hstep _ _ (hpush c s h)

theorem finishTable_tableOpen (s : State) (h : TableOpen s) : TableOpen (finishTable s) := by
  unfold finishTable
  split
  · exact h
  · intro hst
    simp at hst

theorem countDown_tableOpen (s : State) (h : TableOpen s) : TableOpen (countDown s) := by
  unfold countDown
  simp only
  split
  · exact finishTable_tableOpen _ h
  · exact h

theorem push_tableOpen (c : List Byte) (s : State) (h : TableOpen s) : TableOpen (push c s) := by
  unfold push
  simp only
  split <;> exact h

theorem step_tableOpen (f : JSInt) (s : State) (h : TableOpen s) : TableOpen (step f s) := by
  unfold step
  split
  · rename_i hs
    intro hst
    exfalso
    revert hst
    unfold stepHeader
    simp only
    repeat' split
    all_goals simp [raise, hs]
  · rename_i hs
    intro hst
    exfalso
    revert hst
    unfold stepExtendedHeader
    simp only
    repeat' split
    all_goals simp [raise, hs]
  · intro hst
    simp [stepAddition] at hst
  · rename_i hs
    unfold stepEntryCount
    simp only
    split
    · split
      · intro hst
        simp [raise, hs] at hst
      · rename_i a rest hat
        intro _ h0
        simp only [] at h0
        rw [hat] at h0
        cases h0
    · apply finishTable_tableOpen
      intro hst
      simp [hs] at hst
  · unfold stepUint32
    simp only
    split
    · split
      · exact h
      · split
        · exact h
        · exact countDown_tableOpen _ h
    · split
      · exact h
      · split
        · exact h
        · exact countDown_tableOpen _ h
  · unfold stepUint64
    simp only
    split
    · exact h
    · exact countDown_tableOpen _ h
  · exact h
  · exact h

theorem stepUint32_in_range (L : Nat) (t : State) (he : t.error = none)
    (hs : t.status = .UINT32_CHUNK_OFFSET) (hw : t.writeChunkOffsetType = .stco)
    (hlen : 4 ≤ t.buffer.length) (hopen : t.atoms ≠ [])
    (hfit : readUInt32BE t.buffer 0 + L < 4294967296) :
    (step (.num L) t).error = none ∧
      (step (.num L) t).out = t.out ++ u32be (readUInt32BE t.buffer 0 + L) ∧
      (step (.num L) t).buffer = t.buffer.drop 4 := by
  have hr : ¬ (((readUInt32BE t.buffer 0 : Nat) : Int) + (L : Int) < 0 ∨
      ((readUInt32BE t.buffer 0 : Nat) : Int) + (L : Int) ≥ 4294967296) := by omega
  have hcast : (((readUInt32BE t.buffer 0 : Nat) : Int) + (L : Int)).toNat =
      readUInt32BE t.buffer 0 + L := by omega
  have h4 : (t.buffer.take 4).length = 4 := by simp; omega
  have hwf : writeFront t.buffer (u32be (readUInt32BE t.buffer 0 + L)) =
      u32be (readUInt32BE t.buffer 0 + L) ++ t.buffer.drop 4 := by
    have := writeFront_append (t.buffer.take 4) (t.buffer.drop 4)
      (u32be (readUInt32BE t.buffer 0 + L)) (by rw [h4]; rfl)
    rwa [List.take_append_drop] at this
  obtain ⟨a, rest, hat⟩ : ∃ a rest, t.atoms = a :: rest := by
    cases hx : t.atoms with
    | nil => exact absurd hx hopen
    | cons a rest => exact ⟨a, rest, rfl⟩
  simp only [step, hs, stepUint32, hw, hr, if_false, hcast, hwf]
  rw [flush_front (u32be (readUInt32BE t.buffer 0 + L)) (t.buffer.drop 4) _ 4 (by simp) rfl]
  simp only [countDown]
  split
  · rw [finishTable_cons _ a rest (by simp [hat])]
    simp [he]
  · simp [he]

theorem visited_plain_open (f : JSInt) (s0 : State) (pre : List (List Byte)) (c : List Byte)
    (n : Nat) (h0 : PlainMode s0) (h1 : TableOpen s0) :
    PlainMode (visited f s0 pre c n) ∧ TableOpen (visited f s0 pre c n) := by
  unfold visited
  constructor
  · exact drainFuel_invariant PlainMode f (step_plain f) n _
      (push_plain c _ (feed_plain f s0 pre h0))
  · exact drainFuel_invariant TableOpen f (step_tableOpen f) n _
      (push_tableOpen c _ (feed_invariant TableOpen f (step_tableOpen f) push_tableOpen pre s0 h1))

/-- C21 (as amended): take a run in which the original file size plus the
inserted length (`totalSize = videoSize + freeContentSize + freeHeader.length`)
is below 2^32.  Then the free header is the standard one and `freeHeaderSize`
is the number `8 + freeContentSize`; and in every state `t` the `while` loop
passes through (after any chunks `pre`, a pushed chunk `c` and `n`
iterations) in which the case `UINT32_CHUNK_OFFSET` is about to run on a
value that is at most the original file size, the sum `offset +
freeHeaderSize` is below 2^32: the iteration raises no error, writes the four
bytes of the sum and takes the value off the buffer.  The value is whatever
four bytes the case reads, an entry of a table of the container or bytes of a
payload the machine has taken for a table. -/
theorem stco_write_in_range (videoSize freeContentSize : Nat) (P : Int) (out0 : List Byte)
    (pre : List (List Byte)) (c : List Byte) (n : Nat) (t : State)
    (htot : videoSize + freeContentSize + 8 < 4294967296)
    (ht : t = visited (.num ((8 + freeContentSize : Nat) : Int))
      (initState ((videoSize + freeContentSize + 8 : Nat) : Int) P out0) pre c n)
    (hs : t.status = .UINT32_CHUNK_OFFSET) (hcan : canStep t = true)
    (hentry : readUInt32BE t.buffer 0 ≤ videoSize) :
    buildFreeHeader freeContentSize =
        .ok (u32be (8 + freeContentSize) ++ freeTag, .num ((8 + freeContentSize : Nat) : Int)) ∧
      readUInt32BE t.buffer 0 + (8 + freeContentSize) < 4294967296 ∧
      (step (.num ((8 + freeContentSize : Nat) : Int)) t).error = none ∧
      (step (.num ((8 + freeContentSize : Nat) : Int)) t).out =
        t.out ++ u32be (readUInt32BE t.buffer 0 + (8 + freeContentSize)) ∧
      (step (.num ((8 + freeContentSize : Nat) : Int)) t).buffer = t.buffer.drop 4 := by
  have hinv := visited_plain_open (.num ((8 + freeContentSize : Nat) : Int))
    (initState ((videoSize + freeContentSize + 8 : Nat) : Int) P out0) pre c n
    (initState_plain _ _ _ (by omega)) (by intro h; simp [initState] at h)
  rw [← ht] at hinv
  have he : t.error = none := by
    unfold canStep at hcan
    cases hx : t.error with
    | none => rfl
    | some e => simp [hx] at hcan
  have hlen : 4 ≤ t.buffer.length := by
    unfold canStep at hcan
    simp [he, hs, statusEnum] at hcan
    exact hcan
  have hfit : readUInt32BE t.buffer 0 + (8 + freeContentSize) < 4294967296 := by omega
  exact ⟨(buildFreeHeader_ok freeContentSize).1 (by omega), hfit,
    stepUint32_in_range (8 + freeContentSize) t he hs hinv.1.2 hlen (hinv.2 (Or.inl hs)) hfit⟩

/-- C21, a concrete instance: the video of `entryExample`, 28 bytes with an
entry 10, and 3 bytes of content in the `free` box; the entry is rewritten
to 21. -/
theorem stco_write_in_range_witness :
    entryExample.status = .UINT32_CHUNK_OFFSET ∧ readUInt32BE entryExample.buffer 0 = 10 ∧
      (step (.num 11) entryExample).error = none ∧
      (step (.num 11) entryExample).out = entryExample.out ++ u32be 21 ∧
      (step (.num 11) entryExample).buffer = entryExample.buffer.drop 4 :=
  have h := stco_write_in_range 28 3 19 (ftypBox ++ (u32be 11 ++ freeTag) ++ [9, 9] ++ [7]) []
    (stcoBox [0, 0, 0, 0] [10]) 3 entryExample (by decide) rfl (by decide) (by decide)
    (by decide)
  ⟨by decide, by decide, h.2.2.1, h.2.2.2.1, h.2.2.2.2⟩

/-! ## Claim C16: a flush that discards its bytes -/

/-- The loop guard of the case `UINT32_CHUNK_OFFSET`: whenever the case runs,
at least 4 bytes are buffered, so the call `flush(4, false)` of the `co64`
mode never leaves bytes owed. -/
theorem uint32_guard (t : State) (hcan : canStep t = true)
    (hs : t.status = .UINT32_CHUNK_OFFSET) : 4 ≤ t.buffer.length := by
  unfold canStep at hcan
  cases hx : t.error with
  | none =>
    simp [hx, hs, statusEnum] at hcan
    exact hcan
  | some e => simp [hx] at hcan

/-- The effect of `flush(k, false)` for a length that is not negative, field
by field. -/
theorem flush_nat_silent (k : Nat) (t : State) :
    flush (k : Int) false t = { t with
      owedLength := ((k - t.buffer.length : Nat) : Int)
      buffer := t.buffer.drop k
      offset := t.offset + ((min k t.buffer.length : Nat) : Int) } := by
  unfold flush
  by_cases h : (k : Int) > (t.buffer.length : Int)
  · have hlt : t.buffer.length < k := by omega
    simp only [h, if_true]
    rw [subarrayFrom_natCast]
    have h1 : min k t.buffer.length = t.buffer.length := by omega
    have h3 : List.drop k t.buffer = [] := List.drop_eq_nil_of_le (by omega)
    have h4 : ((k - t.buffer.length : Nat) : Int) = (k : Int) - (t.buffer.length : Int) := by
      omega
    simp [h1, h3, h4]
  · have hle : k ≤ t.buffer.length := by omega
    simp only [h, if_false]
    rw [subarrayFrom_natCast]
    have h1 : min k t.buffer.length = k := by omega
    have h4 : k - t.buffer.length = 0 := by omega
    simp [h1, h4]

theorem flush_silent_settled (L : Nat) (s : State) :
    flush ((L - s.buffer.length : Nat) : Int) true (flush (L : Int) false s) =
      flush (L : Int) false s := by
  rw [flush_nat_silent, flush_nat]
  by_cases h : L ≤ s.buffer.length
  · have h0 : L - s.buffer.length = 0 := by omega
    simp [h0]
  · have h3 : List.drop L s.buffer = [] := List.drop_eq_nil_of_le (by omega)
    simp [h3]

/-- C16 (as amended): `flush(L, false)` itself writes nothing and leaves the
output cursor where it is; it drops the first `L` buffered bytes (all of them
if fewer are buffered) and owes the shortfall.  After any later pushes the
buffer holds the stream without its first `L` bytes, and what has been
written since the call is exactly the part of the shortfall that has
arrived, the cursor having advanced by its length.  So with at least `L`
bytes buffered none of the `L` bytes is ever written and the cursor never
moves for them; with fewer, the bytes buffered at the call are never
written, but the bytes that complete the shortfall are. -/
theorem silent_flush_spec (s : State) (L : Nat) (cs : List (List Byte)) :
    (flush (L : Int) false s).out = s.out ∧
      (flush (L : Int) false s).processedBytes = s.processedBytes ∧
      (flush (L : Int) false s).buffer = s.buffer.drop L ∧
      (flush (L : Int) false s).owedLength = ((L - s.buffer.length : Nat) : Int) ∧
      (pushAll cs (flush (L : Int) false s)).buffer = (s.buffer ++ cs.flatten).drop L ∧
      (pushAll cs (flush (L : Int) false s)).out =
        s.out ++ cs.flatten.take (L - s.buffer.length) ∧
      (pushAll cs (flush (L : Int) false s)).processedBytes =
        s.processedBytes + ((min (L - s.buffer.length) cs.flatten.length : Nat) : Int) ∧
      (L ≤ s.buffer.length →
        (pushAll cs (flush (L : Int) false s)).out = s.out ∧
        (pushAll cs (flush (L : Int) false s)).processedBytes = s.processedBytes) := by
  have hown : (flush (L : Int) false s).owedLength = ((L - s.buffer.length : Nat) : Int) := by
    rw [flush_nat_silent]
  have hseq := pushAll_eq cs (flush (L : Int) false s) (L - s.buffer.length) hown
    (flush_silent_settled L s)
  have hbuf : (flush (L : Int) false s).buffer = s.buffer.drop L := by rw [flush_nat_silent]
  have hout : (flush (L : Int) false s).out = s.out := by rw [flush_nat_silent]
  have hpb : (flush (L : Int) false s).processedBytes = s.processedBytes := by
    rw [flush_nat_silent]
  have hB : (pushAll cs (flush (L : Int) false s)).buffer = (s.buffer ++ cs.flatten).drop L := by
    rw [hseq, flush_nat]
    simp only [hbuf]
    by_cases h : L ≤ s.buffer.length
    · have h0 : L - s.buffer.length = 0 := by omega
      simp [h0, List.drop_append_of_le_length h]
    · have h3 : List.drop L s.buffer = [] := List.drop_eq_nil_of_le (by omega)
      simp [h3, List.drop_append_eq_append_drop]
  have hO : (pushAll cs (flush (L : Int) false s)).out =
      s.out ++ cs.flatten.take (L - s.buffer.length) := by
    rw [hseq, flush_nat]
    simp only [hbuf, hout]
    by_cases h : L ≤ s.buffer.length
    · have h0 : L - s.buffer.length = 0 := by omega
      simp [h0]
    · have h3 : List.drop L s.buffer = [] := List.drop_eq_nil_of_le (by omega)
      simp [h3]
  have hP : (pushAll cs (flush (L : Int) false s)).processedBytes =
      s.processedBytes + ((min (L - s.buffer.length) cs.flatten.length : Nat) : Int) := by
    rw [hseq, flush_nat]
    simp only [hbuf, hpb]
    by_cases h : L ≤ s.buffer.length
    · have h0 : L - s.buffer.length = 0 := by omega
      simp [h0]
    · have h3 : List.drop L s.buffer = [] := List.drop_eq_nil_of_le (by omega)
      simp [h3]
  refine ⟨hout, hpb, hbuf, hown, hB, hO, hP, ?_⟩
  intro h
  have h0 : L - s.buffer.length = 0 := by omega
  rw [hO, hP, h0]
  simp

/-- C16, a concrete instance: five bytes are buffered, `flush(4, false)`
drops four of them, and two chunks arrive afterwards. -/
theorem silent_flush_spec_witness :
    (pushAll [[6], [7, 8]] (flush ((4 : Nat) : Int) false
        { initState 1000 19 [9, 9] with buffer := [1, 2, 3, 4, 5] })).buffer = [5, 6, 7, 8] ∧
      (pushAll [[6], [7, 8]] (flush ((4 : Nat) : Int) false
        { initState 1000 19 [9, 9] with buffer := [1, 2, 3, 4, 5] })).out = [9, 9] ∧
      (pushAll [[6], [7, 8]] (flush ((4 : Nat) : Int) false
        { initState 1000 19 [9, 9] with buffer := [1, 2, 3, 4, 5] })).processedBytes = 19 :=
  have h := silent_flush_spec { initState 1000 19 [9, 9] with buffer := [1, 2, 3, 4, 5] } 4
    [[6], [7, 8]]
  ⟨h.2.2.2.2.1, (h.2.2.2.2.2.2.2 (by decide)).1, (h.2.2.2.2.2.2.2 (by decide)).2⟩

/-! ## Claim C21: an entry read inside a payload -/

set_option maxRecDepth 100000 in
/-- C21 as stated fails: the video is `ftyp`, a box `moov` holding the one
`stco` table of the container (entry 36, below the file size 64), and a box
`mdat` whose 20 content bytes look like an `stco` table with the entry
`0xFFFFFFFF`.  The total size is 75.  The machine reads the content of `mdat`
as a table, and the 32-bit write of `0xFFFFFFFF + 11` is out of range: the
run stops with a RangeError after the entry count of that content. -/
theorem payload_entry_out_of_range :
    (ftypBox ++ (u32be 28 ++ [109, 111, 111, 118] ++ stcoBox [0, 0, 0, 0] [36]) ++
        (u32be 28 ++ [109, 100, 97, 116] ++ stcoBox [0, 0, 0, 0] [4294967295])).length = 64 ∧
      hideFileInVideo (ftypBox ++ (u32be 28 ++ [109, 111, 111, 118] ++ stcoBox [0, 0, 0, 0] [36]) ++
          (u32be 28 ++ [109, 100, 97, 116] ++ stcoBox [0, 0, 0, 0] [4294967295])) [9, 9] [7] [] =
        { error := some .rangeError
          file := ftypBox ++ (u32be 11 ++ freeTag) ++ [9, 9] ++ [7] ++
            (u32be 28 ++ [109, 111, 111, 118] ++ stcoBox [0, 0, 0, 0] [47]) ++
            (u32be 28 ++ [109, 100, 97, 116] ++
              (u32be 20 ++ stcoTag ++ [0, 0, 0, 0] ++ u32be 1)) } := by
  decide

end HideFileInMp4
